import Mathlib

/-!
Verification development for the Python API inventory engine of the
path-annotate repository (src/codetools/inventory/core.py, ast_ops.py,
models.py and the CLI in src/codetools/inventory/py_api_inventory.py).

The Python code is shallowly embedded: the loosely typed ast nodes become a
tagged variant type, TypedDict records become structures with Option fields
for keys that the code pops, and the string manipulations of the qualified
name derivation are modelled on explicit character lists so that every
definition evaluates inside the kernel.

Strings are ordered by Unicode code point exactly as Python orders str
values, and pathlib Path values are ordered by their component tuples
(pathlib PurePath.__lt__ compares the _cparts list on the Python 3.11
interpreter this repository targets), which the functions cmpStr and
partsCmp below embed.
-/

set_option maxRecDepth 10000

namespace Inventory

/-! ## Character and string comparison toolkit -/

/-- Comparison of two characters by code point (Python compares the
characters of a str by code point). -/
def cmpChar (a b : Char) : Ordering :=
  if a.toNat < b.toNat then Ordering.lt
  else if b.toNat < a.toNat then Ordering.gt
  else Ordering.eq

/-- Lexicographic comparison of lists, parametrised by an element
comparison.  This is both Python str comparison (elements are characters)
and Python tuple comparison (elements are strings), a shorter strict prefix
comparing less. -/
def lexCmp (c : α → α → Ordering) : List α → List α → Ordering
  | [], [] => Ordering.eq
  | [], _ :: _ => Ordering.lt
  | _ :: _, [] => Ordering.gt
  | a :: as, b :: bs =>
    match c a b with
    | Ordering.eq => lexCmp c as bs
    | o => o

/-- Python str comparison. -/
def strCmp (a b : String) : Ordering := lexCmp cmpChar a.data b.data

/-- Python tuple-of-str comparison: how pathlib orders paths via their
parts (PurePath._cparts on POSIX is the plain parts list). -/
def partsCmp (a b : List String) : Ordering := lexCmp strCmp a b

/-- Not-greater test on an Ordering, turning a comparison into a
non-strict less-or-equal. -/
def ordLe : Ordering → Bool
  | Ordering.gt => false
  | _ => true

/-- Python str less-or-equal. -/
def strLeB (a b : String) : Bool := ordLe (strCmp a b)

/-- Python path (parts tuple) less-or-equal. -/
def partsLeB (a b : List String) : Bool := ordLe (partsCmp a b)

/-! ## Substring utilities

The qualified-name derivation in the source is a chain of Python
str.replace calls.  str.replace substitutes every non-overlapping
occurrence of the pattern, scanning left to right; replaceFuel embeds that
scan, with a fuel argument (the length of the subject string suffices,
since every call site passes a non-empty pattern) so that the function is
structurally recursive and evaluates inside the kernel. -/

/-- Boolean prefix test on character lists. -/
def startsList : List Char → List Char → Bool
  | [], _ => true
  | _ :: _, [] => false
  | p :: ps, c :: cs => if p = c then startsList ps cs else false

/-- Boolean substring test on character lists. -/
def containsList (pat : List Char) : List Char → Bool
  | [] => startsList pat []
  | c :: cs => startsList pat (c :: cs) || containsList pat cs

/-- One left-to-right scan of Python str.replace, with fuel. -/
def replaceFuel (pat repl : List Char) : Nat → List Char → List Char
  | _, [] => []
  | 0, s => s
  | Nat.succ n, c :: cs =>
    if startsList pat (c :: cs) ∧ pat ≠ [] then
      repl ++ replaceFuel pat repl n ((c :: cs).drop pat.length)
    else
      c :: replaceFuel pat repl n cs

/-- Python str.replace(pat, repl) on character lists (pat non-empty at
every call site of this development). -/
def listReplace (pat repl s : List Char) : List Char :=
  replaceFuel pat repl s.length s

/-- Python "sep".join on character lists. -/
def joinC (sep : Char) : List (List Char) → List Char
  | [] => []
  | [p] => p
  | p :: q :: ps => p ++ sep :: joinC sep (q :: ps)

/-- Join root-relative path parts with forward slashes, as
Path.relative_to(root).as_posix() renders them.  The repository root
itself renders as ".". -/
def joinParts (parts : List String) : String :=
  if parts = [] then "." else ⟨joinC '/' (parts.map String.data)⟩

/-- Join name parts with dots (used only in theorem statements about the
qualified-name contract). -/
def dotJoin (parts : List String) : String :=
  ⟨joinC '.' (parts.map String.data)⟩

/-- True when the character list is non-empty, every character is an ASCII
uppercase letter when cased, and at least one cased character occurs: the
Python str.isupper() test, restricted to ASCII identifiers. -/
def isUpperPy (s : List Char) : Bool :=
  s.any (fun c => ('A' ≤ c ∧ c ≤ 'Z') ∨ ('a' ≤ c ∧ c ≤ 'z')) &&
    !(s.any (fun c => 'a' ≤ c ∧ c ≤ 'z'))

/-- The regular expression [A-Z0-9_]+ anchored at both ends, as used by the
uppercase constant-visibility policy. -/
def upperIdent (s : List Char) : Bool :=
  !(s.isEmpty) && s.all (fun c => ('A' ≤ c ∧ c ≤ 'Z') ∨ ('0' ≤ c ∧ c ≤ '9') ∨ c = '_')

/-- Python str.strip() whitespace test (the ASCII fragment; the analysed
claims never exercise non-ASCII whitespace). -/
def isPySpace (c : Char) : Bool :=
  c = ' ' ∨ c = '\t' ∨ c = '\n' ∨ c = '\x0d' ∨ c = '\x0b' ∨ c = '\x0c'

/-- Python str.strip(). -/
def pyStrip (s : String) : String :=
  ⟨((s.data.dropWhile isPySpace).reverse.dropWhile isPySpace).reverse⟩

/-! ## The ast node model

Python ast declaration nodes become a tagged variant type.  Two points of
the embedding are load bearing for the claims:

* ast.Assign stores its left-hand sides in the field targets (a list),
  while ast.AnnAssign stores a single target in the field target.  The
  source reads getattr(node, "target", None); stmtTargetAttr embeds that
  lookup and therefore yields none for every plain assignment, which has
  no attribute called target.
* Decorator expressions are embedded as the strings ast.unparse renders
  them to (call decorators reduced to their callee first, as
  AstUtils.get_decorator_kind does before matching); the extractor only
  ever consumes those strings. -/

/-- Python literal constants (ast.Constant values of the shapes the
extractor resolves; float literals are not exercised by any claim). -/
inductive Lit where
  | intL (n : Int)
  | strL (s : String)
  | boolL (b : Bool)
  | noneL
deriving DecidableEq

/-- A resolved constant value as extract_literal_value produces it. -/
inductive PyVal where
  | prim (l : Lit)
  | listV (xs : List Lit)
  | tupleV (xs : List Lit)
  | setV (xs : List Lit)
  | dictV (kvs : List (Lit × Lit))
deriving DecidableEq

/-- Python expression nodes, as far as the extractor inspects them. -/
inductive PyExpr where
  | constant (l : Lit)
  | name (id : String)
  | attrE (obj : PyExpr) (attrName : String)
  | listE (elts : List PyExpr)
  | tupleE (elts : List PyExpr)
  | setE (elts : List PyExpr)
  | dictE (kvs : List (PyExpr × PyExpr))
  | other (render : String)

/-- One formal parameter (ast.arg): its name and optional annotation. -/
structure PyArg where
  arg : String
  ann : Option PyExpr

/-- ast.arguments. -/
structure PyArgs where
  posonlyargs : List PyArg
  args : List PyArg
  defaults : List PyExpr
  vararg : Option PyArg
  kwonlyargs : List PyArg
  kw_defaults : List (Option PyExpr)
  kwarg : Option PyArg

/-- The empty signature (def f(): ...). -/
def PyArgs.empty : PyArgs := ⟨[], [], [], none, [], [], none⟩

/-- Python statement nodes at the granularity the extractor dispatches on.
Decorator lists carry the unparsed decorator names (see module comment). -/
inductive Stmt where
  | assign (targets : List PyExpr) (value : PyExpr)
  | annAssign (target : PyExpr) (ann : PyExpr) (value : Option PyExpr)
  | functionDef (name : String) (args : PyArgs) (body : List Stmt)
      (decorator_list : List String) (returns : Option PyExpr)
  | asyncFunctionDef (name : String) (args : PyArgs) (body : List Stmt)
      (decorator_list : List String) (returns : Option PyExpr)
  | classDef (name : String) (bases : List PyExpr) (body : List Stmt)
      (decorator_list : List String)
  | exprStmt (value : PyExpr)
  | passStmt

/-- getattr(node, "target", None): only an annotated assignment has the
attribute; a plain ast.Assign carries targets (a list) instead. -/
def stmtTargetAttr : Stmt → Option PyExpr
  | Stmt.annAssign t _ _ => some t
  | _ => none

/-- getattr(node, "value", None) for the nodes the extractor passes in
(assignments; an annotated assignment may lack a value). -/
def stmtValueAttr : Stmt → Option PyExpr
  | Stmt.assign _ v => some v
  | Stmt.annAssign _ _ v => v
  | Stmt.exprStmt v => some v
  | _ => none

/-! ## Output records (models.py TypedDicts)

Optional presence of a TypedDict key (the source pops keys after
construction) is embedded as an Option field: none is an absent key. -/

structure Param where
  name : String
  kind : String
  ann : Option String
  default : Option String
deriving DecidableEq

structure FunctionSignature where
  params : List Param
  returns : Option String
deriving DecidableEq

structure ConstantRecord where
  name : String
  visibility : String
  scope : String
  value : Option PyVal
  value_repr : String
deriving DecidableEq

structure EnumMemberRecord where
  name : String
  value_repr : String
deriving DecidableEq

structure EnumRecord where
  name : String
  qname : String
  docstring : Option String
  members : List EnumMemberRecord
deriving DecidableEq

structure MethodRecord where
  name : String
  qname : String
  visibility : String
  kind : String
  decorators : List String
  signature : FunctionSignature
  docstring : Option String
deriving DecidableEq

structure FunctionRecord where
  name : String
  qname : String
  visibility : String
  decorators : List String
  signature : FunctionSignature
  docstring : Option String
deriving DecidableEq

structure ClassRecord where
  name : String
  qname : String
  docstring : Option String
  constants : Option (List ConstantRecord)
  methods : List MethodRecord
deriving DecidableEq

structure ModuleRecord where
  path : String
  qname : String
  docstring : Option String
  constants : Option (List ConstantRecord)
  enums : Option (List EnumRecord)
  functions : Option (List FunctionRecord)
  classes : List ClassRecord
deriving DecidableEq

structure PackageRecord where
  path : String
  qname : String
  is_package : Bool
  modules : List ModuleRecord
deriving DecidableEq

structure InventoryStats where
  files_scanned : Nat
  files_excluded : Nat
  files_parsed_ok : Nat
  files_parse_errors : Nat
  packages : Nat
  modules : Nat
  classes : Nat
  methods : Nat
  constants : Nat
  enums : Nat
  functions : Nat
deriving DecidableEq

/-- The effective configuration dictionary, restricted to the keys the
analysed code reads.  package_mode and constant_visibility stay strings
because the source compares them against string literals (an unrecognised
constant_visibility string falls through both policy branches).  The
concurrency value and the exclude pattern list only size the worker pool
and parametrise the path matcher, which the embedding abstracts. -/
structure Config where
  public_only : Bool
  include_constants : Bool
  include_docstrings : Bool
  strip_docstrings : Bool
  include_enums : Bool
  include_functions : Bool
  package_mode : String
  leading_slash_in_paths : Bool
  constant_visibility : String
deriving DecidableEq

structure Metadata where
  schema_version : String
  generated_at : String
  package_name : Option String
  package_version : Option String
  root : String
  config_effective : Config
deriving DecidableEq

structure InventoryReport where
  meta : Metadata
  stats : InventoryStats
  packages : List PackageRecord
deriving DecidableEq

/-- A TypedDict key holding a possibly falsy string that the source pops
when falsy (if not doc: record.pop(...)): both None and the empty string
leave no key behind. -/
def popFalsy : Option String → Option String
  | some s => if s = "" then none else some s
  | none => none

end Inventory

/-- Equality on Except is decidable componentwise (needed to evaluate the
extraction pipeline, which models a Python exception as Except.error). -/
instance {ε α : Type} [DecidableEq ε] [DecidableEq α] :
    DecidableEq (Except ε α) := fun a b =>
  match a, b with
  | Except.ok x, Except.ok y =>
      if h : x = y then isTrue (by rw [h]) else isFalse (by simp [h])
  | Except.error e, Except.error f =>
      if h : e = f then isTrue (by rw [h]) else isFalse (by simp [h])
  | Except.ok _, Except.error _ => isFalse (by simp)
  | Except.error _, Except.ok _ => isFalse (by simp)

namespace Inventory.AstUtils

/-- AstUtils.get_visibility. -/
def get_visibility (name : String) : String :=
  if startsList "__".data name.data ∧ startsList "__".data name.data.reverse ∧
      4 < name.data.length then "dunder"
  else if startsList "_".data name.data then "private"
  else "public"

/-- repr of a resolved literal as Python renders it inside ast.unparse
output (the single quote around str literals is code point 39). -/
def pyRepr : Lit → String
  | Lit.intL n => toString n
  | Lit.strL s => ⟨Char.ofNat 39 :: s.data ++ [Char.ofNat 39]⟩
  | Lit.boolL b => if b then "True" else "False"
  | Lit.noneL => "None"

mutual

/-- ast.unparse on the embedded expressions. -/
def unparse : PyExpr → String
  | PyExpr.constant l => pyRepr l
  | PyExpr.name id => id
  | PyExpr.other render => render
  | PyExpr.attrE obj attrName => unparse obj ++ "." ++ attrName
  | PyExpr.listE elts => "[" ++ unparseSeq elts ++ "]"
  | PyExpr.tupleE elts => "(" ++ unparseSeq elts ++ ")"
  | PyExpr.setE elts => "\x7b" ++ unparseSeq elts ++ "\x7d"
  | PyExpr.dictE kvs => "\x7b" ++ unparseKVs kvs ++ "\x7d"

/-- Comma-separated rendering of container elements. -/
def unparseSeq : List PyExpr → String
  | [] => ""
  | [e] => unparse e
  | e :: f :: fs => unparse e ++ ", " ++ unparseSeq (f :: fs)

/-- Comma-separated rendering of dict entries. -/
def unparseKVs : List (PyExpr × PyExpr) → String
  | [] => ""
  | [kv] => unparse kv.1 ++ ": " ++ unparse kv.2
  | kv :: kw :: kws =>
      unparse kv.1 ++ ": " ++ unparse kv.2 ++ ", " ++ unparseKVs (kw :: kws)

end

/-- AstUtils.unparse_node. -/
def unparse_node : Option PyExpr → Option String
  | none => none
  | some e => some (unparse e)

/-- ast.get_docstring followed by the source postprocessing: the first
statement of the body must be an expression statement holding a string
constant; a falsy (empty) docstring becomes None; strip_docstrings applies
str.strip(). -/
def get_docstring (body : List Stmt) (strip : Bool) : Option String :=
  match body with
  | Stmt.exprStmt (PyExpr.constant (Lit.strL s)) :: _ =>
      if s = "" then none else if strip then some (pyStrip s) else some s
  | _ => none

/-- AstUtils.extract_literal_value: the resolved value (when the
initializer is a literal constant or a flat container of literal
constants) together with the always-present textual rendering. -/
def extract_literal_value (node : Option PyExpr) : Option PyVal × String :=
  let value_repr := match unparse_node node with
    | some r => r
    | none => "None"
  match node with
  | none => (none, value_repr)
  | some (PyExpr.constant l) => (some (PyVal.prim l), value_repr)
  | some (PyExpr.listE elts) =>
      match allConst elts with
      | some vals => (some (PyVal.listV vals), value_repr)
      | none => (none, value_repr)
  | some (PyExpr.tupleE elts) =>
      match allConst elts with
      | some vals => (some (PyVal.tupleV vals), value_repr)
      | none => (none, value_repr)
  | some (PyExpr.setE elts) =>
      match allConst elts with
      | some vals => (some (PyVal.setV vals), value_repr)
      | none => (none, value_repr)
  | some (PyExpr.dictE kvs) =>
      match allConstKV kvs with
      | some vals => (some (PyVal.dictV vals), value_repr)
      | none => (none, value_repr)
  | some _ => (none, value_repr)
where
  /-- all(isinstance(e, ast.Constant) for e in elts), returning the values. -/
  allConst : List PyExpr → Option (List Lit)
    | [] => some []
    | PyExpr.constant l :: rest =>
        match allConst rest with
        | some ls => some (l :: ls)
        | none => none
    | _ => none
  /-- the analogous test over dict key/value pairs. -/
  allConstKV : List (PyExpr × PyExpr) → Option (List (Lit × Lit))
    | [] => some []
    | (PyExpr.constant k, PyExpr.constant v) :: rest =>
        match allConstKV rest with
        | some ls => some ((k, v) :: ls)
        | none => none
    | _ => none

/-- AstUtils.is_enum: some base is one of the enum base names, by simple
name or by trailing attribute name. -/
def is_enum (bases : List PyExpr) : Bool :=
  bases.any fun base =>
    match base with
    | PyExpr.name id =>
        decide (id = "Enum" ∨ id = "IntEnum" ∨ id = "StrEnum" ∨ id = "Flag" ∨
          id = "IntFlag")
    | PyExpr.attrE _ attrName =>
        decide (attrName = "Enum" ∨ attrName = "IntEnum" ∨ attrName = "StrEnum" ∨
          attrName = "Flag" ∨ attrName = "IntFlag")
    | _ => false

/-- Python str.endswith on embedded strings. -/
def endsWithPy (s suffix : String) : Bool :=
  startsList suffix.data.reverse s.data.reverse

/-- The per-decorator step of AstUtils.get_decorator_kind: a name ending
in staticmethod forces static, else one ending in classmethod forces
class, else the kind so far is kept. -/
def decoStep (kind : String) (name : String) : String :=
  if endsWithPy name "staticmethod" then "static"
  else if endsWithPy name "classmethod" then "class"
  else kind

/-- AstUtils.get_decorator_kind: the resulting kind and the sorted
decorator names. -/
def get_decorator_kind (decorators : List String) : String × List String :=
  (decorators.foldl decoStep "instance",
    List.insertionSort (fun a b => strLeB a b = true) decorators)

end Inventory.AstUtils

namespace Inventory.NodeExtractor

open Inventory.AstUtils

/-- NodeExtractor._vis: keep a name unless public_only filters it out. -/
def _vis (cfg : Config) (name : String) : Bool :=
  !cfg.public_only || decide (get_visibility name = "public")

/-- NodeExtractor._const on an assignment whose target attribute is the
bare identifier name, with valueAttr = getattr(node, "value", None).
Under the uppercase policy the source evaluates name.isupper() and then
AstUtils.re.match, but ast_ops.py imports only ast and typing, so the
AstUtils class has no attribute named re: as soon as isupper() is true
the lookup raises AttributeError with the message embedded below, while
short-circuiting returns None for a non-isupper name before the broken
lookup is reached.  The regex and the visibility test behind it are
unreachable, so the uppercase branch never builds a record. -/
def _const (cfg : Config) (scope : String) (name : String)
    (valueAttr : Option PyExpr) : Except String (Option ConstantRecord) :=
  let vis := get_visibility name
  let st := cfg.constant_visibility
  let build : Option ConstantRecord :=
    let vr := extract_literal_value valueAttr
    some { name := name, visibility := vis, scope := scope,
           value := vr.1, value_repr := vr.2 }
  if st = "uppercase" then
    if isUpperPy name.data then
      Except.error "type object \x27AstUtils\x27 has no attribute \x27re\x27"
    else Except.ok none
  else if st = "no_underscore" ∧ ¬ vis = "public" then Except.ok none
  else Except.ok build

/-- The constant branch of NodeExtractor.extract: the node is an
assignment or annotated assignment, include_constants is on, and the
candidate survives only when getattr(node, "target", None) is an ast.Name
(so never for a plain assignment, whose attribute is targets). -/
def constCandidate (cfg : Config) (scope : String) (node : Stmt) :
    Except String (Option ConstantRecord) :=
  match stmtTargetAttr node with
  | some (PyExpr.name id) => _const cfg scope id (stmtValueAttr node)
  | _ => Except.ok none

/-- NodeExtractor._sig: assemble the parameter records in declaration
order with positional defaults right-aligned. -/
def _sig (args : PyArgs) (returns : Option PyExpr) : FunctionSignature :=
  let mk := fun (a : PyArg) (kind : String) (d : Option String) =>
    Param.mk a.arg kind (unparse_node a.ann) d
  let pos := args.posonlyargs.map (fun a => mk a "positional_only" none)
  let off := args.args.length - args.defaults.length
  let pk := (List.range args.args.length).zip args.args |>.map fun ia =>
    let d := if off ≤ ia.1 then
        (args.defaults.get? (ia.1 - off)).map unparse
      else none
    mk ia.2 "positional_or_keyword" d
  let va := match args.vararg with
    | some a => [mk a "var_positional" none]
    | none => []
  let ko := (List.range args.kwonlyargs.length).zip args.kwonlyargs |>.map fun ia =>
    let d := match args.kw_defaults.get? ia.1 with
      | some (some e) => some (unparse e)
      | _ => none
    mk ia.2 "keyword_only" d
  let kw := match args.kwarg with
    | some a => [mk a "var_keyword" none]
    | none => []
  { params := pos ++ pk ++ va ++ ko ++ kw, returns := unparse_node returns }

/-- NodeExtractor._func. -/
def _func (cfg : Config) (parentQname : String) (name : String) (args : PyArgs)
    (body : List Stmt) (decorators : List String) (returns : Option PyExpr) :
    FunctionRecord :=
  let d := (get_decorator_kind decorators).2
  let doc := get_docstring body cfg.strip_docstrings
  { name := name,
    qname := parentQname ++ "." ++ name,
    visibility := get_visibility name,
    decorators := d,
    signature := _sig args returns,
    docstring := popFalsy doc }

/-- NodeExtractor._method, parametrised by the class qualified name. -/
def _method (cfg : Config) (cq : String) (name : String) (args : PyArgs)
    (body : List Stmt) (decorators : List String) (returns : Option PyExpr) :
    MethodRecord :=
  let kd := get_decorator_kind decorators
  let k := if name = "__init__" then "instance" else kd.1
  let doc := get_docstring body cfg.strip_docstrings
  { name := name,
    qname := cq ++ "." ++ name,
    visibility := get_visibility name,
    kind := k,
    decorators := kd.2,
    signature := _sig args returns,
    docstring := popFalsy doc }

/-- The method-collection loop of NodeExtractor._class: function and
async-function declarations at class scope, a method named __init__ kept
unconditionally, every other method subject to _vis. -/
def methodsOf (cfg : Config) (cq : String) : List Stmt → List MethodRecord
  | [] => []
  | Stmt.functionDef name args body decorators returns :: rest =>
      if name = "__init__" ∨ _vis cfg name = true then
        _method cfg cq name args body decorators returns :: methodsOf cfg cq rest
      else methodsOf cfg cq rest
  | Stmt.asyncFunctionDef name args body decorators returns :: rest =>
      if name = "__init__" ∨ _vis cfg name = true then
        _method cfg cq name args body decorators returns :: methodsOf cfg cq rest
      else methodsOf cfg cq rest
  | _ :: rest => methodsOf cfg cq rest

/-- NodeExtractor._class, given the already extracted (and sorted)
class-scope constants of the recursive extract call. -/
def classRecordOf (cfg : Config) (qname name : String) (body : List Stmt)
    (consts : List ConstantRecord) : ClassRecord :=
  let doc := get_docstring body cfg.strip_docstrings
  let ms := methodsOf cfg qname body
  { name := name,
    qname := qname,
    docstring := popFalsy doc,
    constants := if cfg.include_constants then some consts else none,
    methods := List.insertionSort
      (fun a b : MethodRecord => strLeB a.name b.name = true) ms }

/-- The member loop of NodeExtractor._enum: assignments and annotated
assignments whose target attribute is an ast.Name not starting with an
underscore (again, a plain assignment never has the attribute target). -/
def enumMembers : List Stmt → List EnumMemberRecord
  | [] => []
  | node :: rest =>
      match stmtTargetAttr node with
      | some (PyExpr.name id) =>
          if startsList "_".data id.data then enumMembers rest
          else
            EnumMemberRecord.mk id (extract_literal_value (stmtValueAttr node)).2 ::
              enumMembers rest
      | _ => enumMembers rest

/-- NodeExtractor._enum. -/
def _enum (cfg : Config) (name qname : String) (body : List Stmt) : EnumRecord :=
  { name := name,
    qname := qname,
    docstring := popFalsy (get_docstring body cfg.strip_docstrings),
    members := List.insertionSort
      (fun a b : EnumMemberRecord => strLeB a.name b.name = true)
      (enumMembers body) }

/-- The four lists NodeExtractor.extract accumulates before sorting. -/
structure ExtractRes where
  constants : List ConstantRecord
  enums : List EnumRecord
  functions : List FunctionRecord
  classes : List ClassRecord
deriving DecidableEq

def ExtractRes.nil : ExtractRes := ⟨[], [], [], []⟩

mutual

/-- One iteration of the dispatch loop of NodeExtractor.extract, given the
result accumulated over the remaining statements (the loop appends in
iteration order, which prepending under a right fold reproduces).  The
AttributeError a constant candidate raises under the uppercase policy
escapes the loop, as does one raised inside a nested class extraction. -/
def extractStmt (cfg : Config) (parentQname scope : String) (node : Stmt)
    (tail : ExtractRes) : Except String ExtractRes :=
  match node with
  | Stmt.assign _ _ =>
      if cfg.include_constants then
        match constCandidate cfg scope node with
        | Except.error e => Except.error e
        | Except.ok (some c) =>
            Except.ok { tail with constants := c :: tail.constants }
        | Except.ok none => Except.ok tail
      else Except.ok tail
  | Stmt.annAssign _ _ _ =>
      if cfg.include_constants then
        match constCandidate cfg scope node with
        | Except.error e => Except.error e
        | Except.ok (some c) =>
            Except.ok { tail with constants := c :: tail.constants }
        | Except.ok none => Except.ok tail
      else Except.ok tail
  | Stmt.functionDef name args body decorators returns =>
      if cfg.include_functions ∧ scope = "module" then
        if _vis cfg name then
          let fr := _func cfg parentQname name args body decorators returns
          Except.ok { tail with functions := fr :: tail.functions }
        else Except.ok tail
      else Except.ok tail
  | Stmt.asyncFunctionDef name args body decorators returns =>
      if cfg.include_functions ∧ scope = "module" then
        if _vis cfg name then
          let fr := _func cfg parentQname name args body decorators returns
          Except.ok { tail with functions := fr :: tail.functions }
        else Except.ok tail
      else Except.ok tail
  | Stmt.classDef name bases body _ =>
      if _vis cfg name then
        let fq := parentQname ++ "." ++ name
        if cfg.include_enums && is_enum bases then
          let er := _enum cfg name fq body
          Except.ok { tail with enums := er :: tail.enums }
        else
          match extractStmts cfg fq "class" body with
          | Except.error e => Except.error e
          | Except.ok sub =>
              let subConsts := List.insertionSort
                (fun a b : ConstantRecord => strLeB a.name b.name = true)
                sub.constants
              let cr := classRecordOf cfg fq name body subConsts
              Except.ok { tail with classes := cr :: tail.classes }
      else Except.ok tail
  | Stmt.exprStmt _ => Except.ok tail
  | Stmt.passStmt => Except.ok tail

/-- The dispatch loop of NodeExtractor.extract over a statement list.  The
source applies the nested class-scope extract call in full and keeps only
its constants; here the constant sort of that nested call is inlined at
the use site in extractStmt (the discarded lists are built all the
same).  The loop raises at the first offending statement in iteration
order, so when the remaining statements fail the current statement is
still consulted first and its raise, if any, is the one surfaced --
extractStmt errors do not depend on the accumulator, so consulting it on
the empty accumulator decides whether it raises. -/
def extractStmts (cfg : Config) (parentQname scope : String) :
    List Stmt → Except String ExtractRes
  | [] => Except.ok ExtractRes.nil
  | node :: rest =>
      match extractStmts cfg parentQname scope rest with
      | Except.ok tail => extractStmt cfg parentQname scope node tail
      | Except.error e =>
          match extractStmt cfg parentQname scope node ExtractRes.nil with
          | Except.error e2 => Except.error e2
          | Except.ok _ => Except.error e

end

/-- NodeExtractor.extract: run the loop and sort the four lists by their
ordering keys; an AttributeError raised in the loop escapes. -/
def extract (cfg : Config) (parentQname : String) (nodes : List Stmt)
    (scope : String) : Except String ExtractRes :=
  match extractStmts cfg parentQname scope nodes with
  | Except.error e => Except.error e
  | Except.ok r =>
      Except.ok
        { constants := List.insertionSort
            (fun a b : ConstantRecord => strLeB a.name b.name = true) r.constants,
          enums := List.insertionSort
            (fun a b : EnumRecord => strLeB a.qname b.qname = true) r.enums,
          functions := List.insertionSort
            (fun a b : FunctionRecord => strLeB a.qname b.qname = true) r.functions,
          classes := List.insertionSort
            (fun a b : ClassRecord => strLeB a.qname b.qname = true) r.classes }

end Inventory.NodeExtractor

namespace Inventory.ModuleWorker

open Inventory.AstUtils Inventory.NodeExtractor

/-- The qualified-name chain of ModuleParser.parse_file (core.py lines
300-305): rel.lstrip("/").replace(".py", "").replace("/__init__",
"").replace("/", ".").  Python str.replace substitutes every occurrence,
which listReplace embeds. -/
def qnameOfRel (rel : String) : String :=
  let s1 := rel.data.dropWhile (fun c => decide (c = '/'))
  let s2 := listReplace ".py".data [] s1
  let s3 := listReplace "/__init__".data [] s2
  ⟨listReplace "/".data ".".data s3⟩

/-- ModuleParser.parse_file.  The file system and the structural parser
are abstracted into the tree argument: the parsed module body on success,
or the stringified exception on any parse or read failure; the blanket
except handler of the second try block wraps any exception -- a failed
read or parse as well as an AttributeError escaping the extraction -- in
the single message "Parse Error: ...".  relRaw is the root-relative POSIX
path the worker recomputes from (file_path, root); the worker consumes
nothing else, so the function signature carries the independence the spec
demands. -/
def parse_file (cfg : Config) (relRaw : String)
    (tree : Except String (List Stmt)) : String × (ModuleRecord ⊕ String) :=
  let rel := if cfg.leading_slash_in_paths then "/" ++ relRaw else relRaw
  let qname := qnameOfRel rel
  let payload : ModuleRecord ⊕ String :=
    match tree with
    | Except.error e => Sum.inr ("Parse Error: " ++ e)
    | Except.ok body =>
        let mod_doc := if cfg.include_docstrings then
            get_docstring body cfg.strip_docstrings
          else none
        match extract cfg qname body "module" with
        | Except.error e => Sum.inr ("Parse Error: " ++ e)
        | Except.ok r =>
            Sum.inl
              { path := rel,
                qname := qname,
                docstring := popFalsy mod_doc,
                constants := if cfg.include_constants then some r.constants
                  else none,
                enums := if cfg.include_enums then some r.enums else none,
                functions := if cfg.include_functions then some r.functions
                  else none,
                classes := r.classes }
  (qname, payload)

end Inventory.ModuleWorker

namespace Inventory.InventoryService

open Inventory.AstUtils

/-- InventoryService._normalize_rel: the POSIX root-relative path, with a
leading slash when configured.  The repository root itself normalizes to
".". -/
def normalize_rel (cfg : Config) (parts : List String) : String :=
  let rel := joinParts parts
  if cfg.leading_slash_in_paths then "/" ++ rel else rel

/-- The package qualified name of InventoryService._build_package_tree
(line 138): rel.lstrip("/").replace("/", "."). -/
def packageQname (rel : String) : String :=
  ⟨listReplace "/".data ".".data (rel.data.dropWhile (fun c => decide (c = '/')))⟩

/-- The module qualified name computed by
InventoryService._build_package_tree for each skeleton (lines 147-152),
textually the same replace chain the worker applies. -/
def moduleQname (m_rel : String) : String :=
  let s1 := m_rel.data.dropWhile (fun c => decide (c = '/'))
  let s2 := listReplace ".py".data [] s1
  let s3 := listReplace "/__init__".data [] s2
  ⟨listReplace "/".data ".".data s3⟩

/-- Keep the last occurrence of every element (the composition of Python
set construction with the later sort makes any dedup order equivalent). -/
def dedupList [DecidableEq α] : List α → List α
  | [] => []
  | x :: xs => if x ∈ xs then dedupList xs else x :: dedupList xs

/-- The sorted package directory list of _build_package_tree: the set of
parent directories of the discovered files (only of __init__.py files
under require_init_py), sorted as Python sorts Path values — by the parts
tuple. -/
def sortedPkgDirs (cfg : Config) (files : List (List String)) :
    List (List String) :=
  let dirs0 := if cfg.package_mode = "require_init_py" then
      (files.filter (fun p => decide (p.getLast? = some "__init__.py"))).map
        List.dropLast
    else files.map List.dropLast
  List.insertionSort (fun a b => partsLeB a b = true) (dedupList dirs0)

/-- The empty module skeleton _build_package_tree attaches per eligible
file. -/
def moduleSkeleton (cfg : Config) (parts : List String) : ModuleRecord :=
  let m_rel := normalize_rel cfg parts
  { path := m_rel,
    qname := moduleQname m_rel,
    docstring := none,
    constants := some [],
    enums := some [],
    functions := some [],
    classes := [] }

/-- InventoryService._build_package_tree: one PackageRecord per package
directory in sorted order, holding one skeleton per file whose parent
directory is a recognised package, in file-list order.  Files whose
parent is not a recognised package are dropped silently. -/
def _build_package_tree (cfg : Config) (files : List (List String)) :
    List PackageRecord :=
  (sortedPkgDirs cfg files).map fun d =>
    let rel := normalize_rel cfg d
    { path := rel,
      qname := packageQname rel,
      is_package := true,
      modules := (files.filter (fun f => decide (f.dropLast = d))).map
        (moduleSkeleton cfg) }

/-- InventoryService._init_stats. -/
def _init_stats (files excluded pkgs mods : Nat) : InventoryStats :=
  { files_scanned := files,
    files_excluded := excluded,
    files_parsed_ok := 0,
    files_parse_errors := 0,
    packages := pkgs,
    modules := mods,
    classes := 0,
    methods := 0,
    constants := 0,
    enums := 0,
    functions := 0 }

/-- InventoryService._update_stats on one successfully parsed module. -/
def _update_stats (stats : InventoryStats) (mod : ModuleRecord) :
    InventoryStats :=
  let classConsts := (mod.classes.map
    (fun c => ((c.constants.getD []).length, c.methods.length)))
  { stats with
    constants := stats.constants + (mod.constants.getD []).length +
      (classConsts.map Prod.fst).sum,
    enums := stats.enums + (mod.enums.getD []).length,
    functions := stats.functions + (mod.functions.getD []).length,
    classes := stats.classes + mod.classes.length,
    methods := stats.methods + (classConsts.map Prod.snd).sum }

/-- The parsed_results dict of _process_modules: the completion sequence
of (qname, result) pairs builds a mapping in which a later completion
overwrites an earlier one with the same qualified name. -/
def lastAssoc (results : List (String × α)) (q : String) : Option α :=
  results.foldl (fun acc kv => if kv.1 = q then some kv.2 else acc) none

/-- The inner merge loop of _process_modules over one package skeleton
list: a dict result counts as parsed ok and is kept; an error string or a
missing entry counts as a parse error and leaves no module behind. -/
def mergeSkeletons (lookup : String → Option (ModuleRecord ⊕ String))
    (stats : InventoryStats) :
    List ModuleRecord → List ModuleRecord × InventoryStats
  | [] => ([], stats)
  | sk :: rest =>
      match lookup sk.qname with
      | some (Sum.inl record) =>
          let stats1 := _update_stats
            { stats with files_parsed_ok := stats.files_parsed_ok + 1 } record
          let t := mergeSkeletons lookup stats1 rest
          (record :: t.1, t.2)
      | _ =>
          mergeSkeletons lookup
            { stats with files_parse_errors := stats.files_parse_errors + 1 } rest

/-- The merge phase of _process_modules over the package list; every
package ends with its processed modules re-sorted by qualified name. -/
def mergePackages (lookup : String → Option (ModuleRecord ⊕ String))
    (stats : InventoryStats) :
    List PackageRecord → List PackageRecord × InventoryStats
  | [] => ([], stats)
  | pkg :: rest =>
      let m := mergeSkeletons lookup stats pkg.modules
      let sortedMods := List.insertionSort
        (fun a b : ModuleRecord => strLeB a.qname b.qname = true) m.1
      let t := mergePackages lookup m.2 rest
      ({ pkg with modules := sortedMods } :: t.1, t.2)

/-- InventoryService._process_modules: results arrive keyed by qualified
name in an unconstrained completion order, are collapsed into the
parsed_results mapping, and are merged back into the skeleton tree. -/
def _process_modules (packages : List PackageRecord) (stats : InventoryStats)
    (results : List (String × (ModuleRecord ⊕ String))) :
    List PackageRecord × InventoryStats :=
  mergePackages (fun q => lastAssoc results q) stats packages

/-- InventoryService._build_report: metadata assembly; the package list is
passed through unchanged. -/
def _build_report (generated_at : String) (stats : InventoryStats)
    (pkgs : List PackageRecord) (pname pver : Option String)
    (cfg : Config) (root : String) : InventoryReport :=
  { meta :=
      { schema_version := "1.0",
        generated_at := generated_at,
        package_name := pname,
        package_version := pver,
        root := root,
        config_effective := cfg },
    stats := stats,
    packages := pkgs }

/-- One directory entry met by Path.rglob("*.py") during the collection
scan, described root-relatively. -/
structure FsEntry where
  parts : List String
  is_file : Bool
  is_symlink : Bool
  deriving DecidableEq

/-- The collection loop of InventoryService._collect_files over the
file-system iteration sequence: skip anything that is not a regular file
or is a symbolic link, count a match of the exclusion spec as excluded,
keep the rest. -/
def collectLoop (matcher : List String → Bool) :
    List FsEntry → List (List String) × Nat
  | [] => ([], 0)
  | e :: rest =>
      let t := collectLoop matcher rest
      if !e.is_file || e.is_symlink then t
      else if matcher e.parts then (t.1, t.2 + 1)
      else (e.parts :: t.1, t.2)

/-- InventoryService._collect_files: the surviving paths in sorted order
(Python sorts the Path values by their parts tuples) together with the
excluded count. -/
def _collect_files (matcher : List String → Bool) (entries : List FsEntry) :
    List (List String) × Nat :=
  let r := collectLoop matcher entries
  (List.insertionSort (fun a b => partsLeB a b = true) r.1, r.2)

/-- The run_inventory pipeline on an abstract repository (a list of files
with their parse outcomes), with the canonical completion order (one
result per skeleton, in skeleton order) — the order _process_modules is
fed under is quantified separately where a claim depends on it. -/
def runRepo (cfg : Config)
    (repo : List (List String × Except String (List Stmt))) :
    List PackageRecord × InventoryStats :=
  let files := repo.map Prod.fst
  let packages := _build_package_tree cfg files
  let allModules := (packages.map PackageRecord.modules).flatten
  let stats := _init_stats files.length 0 packages.length allModules.length
  let treeOf := fun (rel : String) =>
    match repo.find? (fun fp => decide (normalize_rel cfg fp.1 = rel)) with
    | some fp => fp.2
    | none => Except.error "missing file"
  let results := allModules.map fun m =>
    Inventory.ModuleWorker.parse_file cfg
      ⟨m.path.data.dropWhile (fun c => decide (c = '/'))⟩
      (treeOf m.path)
  _process_modules packages stats results

end Inventory.InventoryService

namespace Inventory.CliInterface

/-- The exit decision of CliInterface.run (py_api_inventory.py line 61):
the errors-occurred signal 2 when any per-file parse error was counted,
else success. -/
def exitSignal (report : InventoryReport) : Nat :=
  if 0 < report.stats.files_parse_errors then 2 else 0

/-- The fatal-setup signal of the surrounding except handler (line 65). -/
def fatalSignal : Nat := 1

end Inventory.CliInterface

namespace Inventory

/-- Modelled from the spec (claim C6 wording, for comparison with the
code): the module qualified name as the claim describes it — leading
slashes stripped, the .py file extension removed, a trailing __init__
path segment removed, and path separators folded to dots. -/
def specModuleQname (rel : String) : String :=
  let s0 := rel.data.dropWhile (fun c => decide (c = '/'))
  let s1 := if startsList ".py".data.reverse s0.reverse then
      s0.take (s0.length - 3)
    else s0
  let s2 := if startsList "/__init__".data.reverse s1.reverse then
      s1.take (s1.length - 9)
    else if s1 = "__init__".data then []
    else s1
  ⟨s2.map (fun c => if c = '/' then '.' else c)⟩

end Inventory

namespace Inventory

/-- A pattern with no self-overlap at a boundary: no proper non-empty
suffix-position split k makes the tail of the pattern coincide with its
own prefix.  Both replace patterns of the qualified-name chain (".py" and
"/__init__") satisfy it, which rules out an occurrence straddling the
boundary between a prefix known to be occurrence-free and an appended
copy of the pattern. -/
def noStraddle (pat : List Char) : Prop :=
  ∀ k, 0 < k → k < pat.length → pat.drop k ≠ pat.take (pat.length - k)

/-- A well-behaved path segment for the qualified-name contract: non-empty,
slash-free, without an internal ".py" occurrence, and not beginning with
"__init__". -/
def segOkC (s : List Char) : Prop :=
  s ≠ [] ∧ ('/' ∉ s) ∧ containsList ".py".data s = false ∧
    startsList "__init__".data s = false

/-- A well-behaved package path component for the ordering contract:
non-empty, slash-free, and every character above the dot separator (true
of names over letters, digits and underscores). -/
def goodPart (s : String) : Prop :=
  s.data ≠ [] ∧ ('/' ∉ s.data) ∧ ∀ ch ∈ s.data, Char.toNat '.' < Char.toNat ch

end Inventory

/-! ## Concrete example inputs used by the claim theorems -/

namespace Inventory

/-- The configuration of the end-to-end example: require_init_py packages,
constants and functions requested, public-only filtering, default
no_underscore constant policy, no leading slashes. -/
def exCfg : Config :=
  { public_only := true, include_constants := true, include_docstrings := false,
    strip_docstrings := false, include_enums := true, include_functions := true,
    package_mode := "require_init_py", leading_slash_in_paths := false,
    constant_visibility := "no_underscore" }

/-- The same configuration under the any_dir_with_py package policy. -/
def exCfgAny : Config := { exCfg with package_mode := "any_dir_with_py" }

/-- The same configuration under the uppercase constant policy. -/
def exCfgUp : Config := { exCfgAny with constant_visibility := "uppercase" }

/-- The parsed body of pkg/a.py: CONST = 1 and def f(): pass. -/
def exBodyA : List Stmt :=
  [Stmt.assign [PyExpr.name "CONST"] (PyExpr.constant (Lit.intL 1)),
   Stmt.functionDef "f" PyArgs.empty [Stmt.passStmt] [] none]

/-- The end-to-end example repository: pkg/__init__.py (empty) and
pkg/a.py. -/
def exRepo : List (List String × Except String (List Stmt)) :=
  [(["pkg", "__init__.py"], Except.ok []),
   (["pkg", "a.py"], Except.ok exBodyA)]

/-- The repository with one unparsable module. -/
def exRepoBad : List (List String × Except String (List Stmt)) :=
  [(["pkg", "__init__.py"], Except.ok []),
   (["pkg", "bad.py"], Except.error "invalid syntax (line 1)")]

/-- The function record the end-to-end example produces for pkg.a.f. -/
def exFRec : FunctionRecord :=
  { name := "f", qname := "pkg.a.f", visibility := "public", decorators := [],
    signature := { params := [], returns := none }, docstring := none }

/-- The module record produced for pkg/__init__.py. -/
def exModInit : ModuleRecord :=
  { path := "pkg/__init__.py", qname := "pkg", docstring := none,
    constants := some [], enums := some [], functions := some [], classes := [] }

/-- The module record the code produces for pkg/a.py: note the empty
constants list. -/
def exModA : ModuleRecord :=
  { path := "pkg/a.py", qname := "pkg.a", docstring := none,
    constants := some [], enums := some [], functions := some [exFRec],
    classes := [] }

/-- A repository in which two distinct files collapse onto the same
module qualified name (every ".py" occurrence is deleted, so both ab.py
and ab.py.py become "ab"). -/
def exCollisionFiles : List (List String) := [["ab.py"], ["ab.py.py"]]

/-- Its package skeletons. -/
def exCollisionPkgs : List PackageRecord :=
  InventoryService._build_package_tree exCfgAny exCollisionFiles

/-- The two parse results in dispatch order. -/
def exCollisionResults : List (String × (ModuleRecord ⊕ String)) :=
  [ModuleWorker.parse_file exCfgAny "ab.py" (Except.ok []),
   ModuleWorker.parse_file exCfgAny "ab.py.py" (Except.ok [])]

/-- The initial statistics for the collision repository. -/
def exCollisionStats : InventoryStats := InventoryService._init_stats 2 0 1 2

end Inventory

/-! ## Theorems

Helper lemmas first (ordering toolkit, dictionary and permutation facts,
substring-replacement facts), then one theorem per claim, each with its
witness or counterexample. -/

namespace Inventory

theorem charToNat_inj {a b : Char} (h : a.toNat = b.toNat) : a = b := by
  have ha := Char.ofNat_toNat a
  have hb := Char.ofNat_toNat b
  rw [← ha, ← hb, h]

theorem cmpChar_eq_iff (a b : Char) : cmpChar a b = Ordering.eq ↔ a = b := by
  unfold cmpChar
  split_ifs with h1 h2
  · simp only [reduceCtorEq, false_iff]
    intro h; subst h; omega
  · simp only [reduceCtorEq, false_iff]
    intro h; subst h; omega
  · simp only [true_iff]
    exact charToNat_inj (by omega)

theorem cmpChar_swap (a b : Char) : cmpChar b a = (cmpChar a b).swap := by
  unfold cmpChar
  split_ifs with h1 h2 h3 h4 h5 h6 <;> simp [Ordering.swap] <;> omega

theorem cmpChar_lt_trans {a b c : Char} (h1 : cmpChar a b = Ordering.lt)
    (h2 : cmpChar b c = Ordering.lt) : cmpChar a c = Ordering.lt := by
  unfold cmpChar at *
  split_ifs at h1 h2 ⊢ <;> first | rfl | omega | simp_all

section LexCmp

variable {α : Type} {c : α → α → Ordering}

theorem lexCmp_eq_iff (hc : ∀ x y, c x y = Ordering.eq ↔ x = y) :
    ∀ l₁ l₂, lexCmp c l₁ l₂ = Ordering.eq ↔ l₁ = l₂ := by
  intro l₁
  induction l₁ with
  | nil => intro l₂; cases l₂ <;> simp [lexCmp]
  | cons a as ih =>
    intro l₂
    cases l₂ with
    | nil => simp [lexCmp]
    | cons b bs =>
      simp only [lexCmp]
      cases h : c a b with
      | eq =>
        rw [ih bs]
        have : a = b := (hc a b).mp h
        subst this
        simp
      | lt =>
        simp only [reduceCtorEq, false_iff]
        intro hh
        injection hh with h1 h2
        subst h1
        rw [(hc a a).mpr rfl] at h
        exact absurd h (by simp)
      | gt =>
        simp only [reduceCtorEq, false_iff]
        intro hh
        injection hh with h1 h2
        subst h1
        rw [(hc a a).mpr rfl] at h
        exact absurd h (by simp)

theorem lexCmp_swap (hc : ∀ x y, c y x = (c x y).swap) :
    ∀ l₁ l₂, lexCmp c l₂ l₁ = (lexCmp c l₁ l₂).swap := by
  intro l₁
  induction l₁ with
  | nil => intro l₂; cases l₂ <;> simp [lexCmp, Ordering.swap]
  | cons a as ih =>
    intro l₂
    cases l₂ with
    | nil => simp [lexCmp, Ordering.swap]
    | cons b bs =>
      simp only [lexCmp, hc a b]
      cases h : c a b <;> simp [Ordering.swap, ih bs]

theorem lexCmp_lt_trans (hc : ∀ x y, c x y = Ordering.eq ↔ x = y)
    (hct : ∀ {x y z}, c x y = Ordering.lt → c y z = Ordering.lt →
      c x z = Ordering.lt) :
    ∀ {l₁ l₂ l₃}, lexCmp c l₁ l₂ = Ordering.lt →
      lexCmp c l₂ l₃ = Ordering.lt → lexCmp c l₁ l₃ = Ordering.lt := by
  intro l₁
  induction l₁ with
  | nil =>
    intro l₂ l₃ h1 h2
    cases l₃ with
    | nil =>
      cases l₂ with
      | nil => exact h2
      | cons b bs => simp [lexCmp] at h2
    | cons d ds => simp [lexCmp]
  | cons a as ih =>
    intro l₂ l₃ h1 h2
    cases l₂ with
    | nil => simp [lexCmp] at h1
    | cons b bs =>
      cases l₃ with
      | nil => simp [lexCmp] at h2
      | cons d ds =>
        simp only [lexCmp] at h1 h2 ⊢
        cases hab : c a b with
        | gt => simp [hab] at h1
        | lt =>
          cases hbd : c b d with
          | gt => simp [hbd] at h2
          | lt => simp [hct hab hbd]
          | eq =>
            have hb : b = d := (hc b d).mp hbd
            subst hb
            simp [hab]
        | eq =>
          have hb : a = b := (hc a b).mp hab
          subst hb
          rw [hab] at h1
          simp only [] at h1
          cases hbd : c a d with
          | gt => simp [hbd] at h2
          | lt => simp [hbd]
          | eq =>
            have hd : a = d := (hc a d).mp hbd
            subst hd
            rw [hbd] at h2
            simp only [] at h2
            simp [hab, ih h1 h2]

end LexCmp

theorem strData_inj : ∀ {a b : String}, a.data = b.data → a = b := by
  intro a b h
  cases a
  cases b
  exact congrArg String.mk h

theorem strCmp_eq_iff (a b : String) : strCmp a b = Ordering.eq ↔ a = b := by
  unfold strCmp
  rw [lexCmp_eq_iff cmpChar_eq_iff]
  constructor
  · exact strData_inj
  · intro h; rw [h]

theorem strCmp_swap (a b : String) : strCmp b a = (strCmp a b).swap :=
  lexCmp_swap cmpChar_swap a.data b.data

theorem strCmp_lt_trans {a b c : String} (h1 : strCmp a b = Ordering.lt)
    (h2 : strCmp b c = Ordering.lt) : strCmp a c = Ordering.lt :=
  lexCmp_lt_trans cmpChar_eq_iff cmpChar_lt_trans h1 h2

theorem ordLe_iff (o : Ordering) : ordLe o = true ↔ o ≠ Ordering.gt := by
  cases o <;> simp [ordLe]

theorem strLeB_total (a b : String) : strLeB a b = true ∨ strLeB b a = true := by
  unfold strLeB
  rw [ordLe_iff, ordLe_iff, strCmp_swap a b]
  cases h : strCmp a b <;> simp [h, Ordering.swap]

theorem strLeB_trans {a b c : String} (h1 : strLeB a b = true)
    (h2 : strLeB b c = true) : strLeB a c = true := by
  unfold strLeB at *
  rw [ordLe_iff] at *
  cases hab : strCmp a b with
  | gt => exact absurd hab h1
  | eq => rw [(strCmp_eq_iff a b).mp hab]; exact h2
  | lt =>
    cases hbc : strCmp b c with
    | gt => exact absurd hbc h2
    | eq => rw [← (strCmp_eq_iff b c).mp hbc]; rw [hab]; simp
    | lt => rw [strCmp_lt_trans hab hbc]; simp

theorem strLeB_antisymm {a b : String} (h1 : strLeB a b = true)
    (h2 : strLeB b a = true) : a = b := by
  unfold strLeB at *
  rw [ordLe_iff] at *
  rw [strCmp_swap] at h2
  cases hab : strCmp a b with
  | gt => exact absurd hab h1
  | eq => exact (strCmp_eq_iff a b).mp hab
  | lt => rw [hab] at h2; exact absurd rfl h2

theorem partsCmp_eq_iff (a b : List String) :
    partsCmp a b = Ordering.eq ↔ a = b := by
  unfold partsCmp
  exact lexCmp_eq_iff strCmp_eq_iff a b

theorem partsCmp_swap (a b : List String) : partsCmp b a = (partsCmp a b).swap :=
  lexCmp_swap strCmp_swap a b

theorem partsCmp_lt_trans {a b c : List String}
    (h1 : partsCmp a b = Ordering.lt) (h2 : partsCmp b c = Ordering.lt) :
    partsCmp a c = Ordering.lt :=
  lexCmp_lt_trans strCmp_eq_iff strCmp_lt_trans h1 h2

theorem partsLeB_total (a b : List String) :
    partsLeB a b = true ∨ partsLeB b a = true := by
  unfold partsLeB
  rw [ordLe_iff, ordLe_iff, partsCmp_swap a b]
  cases h : partsCmp a b <;> simp [h, Ordering.swap]

theorem partsLeB_trans {a b c : List String} (h1 : partsLeB a b = true)
    (h2 : partsLeB b c = true) : partsLeB a c = true := by
  unfold partsLeB at *
  rw [ordLe_iff] at *
  cases hab : partsCmp a b with
  | gt => exact absurd hab h1
  | eq => rw [(partsCmp_eq_iff a b).mp hab]; exact h2
  | lt =>
    cases hbc : partsCmp b c with
    | gt => exact absurd hbc h2
    | eq => rw [← (partsCmp_eq_iff b c).mp hbc]; rw [hab]; simp
    | lt => rw [partsCmp_lt_trans hab hbc]; simp

theorem partsLeB_antisymm {a b : List String} (h1 : partsLeB a b = true)
    (h2 : partsLeB b a = true) : a = b := by
  unfold partsLeB at *
  rw [ordLe_iff] at *
  rw [partsCmp_swap] at h2
  cases hab : partsCmp a b with
  | gt => exact absurd hab h1
  | eq => exact (partsCmp_eq_iff a b).mp hab
  | lt => rw [hab] at h2; exact absurd rfl h2


section ProcessModules

open Inventory.InventoryService

variable {α : Type}

theorem foldl_lastAssoc (q : String) (t : List (String × α)) :
    ∀ acc, t.foldl (fun acc kv => if kv.1 = q then some kv.2 else acc) acc =
      match lastAssoc t q with
      | some v => some v
      | none => acc := by
  induction t with
  | nil => intro acc; simp [lastAssoc]
  | cons kv rest ih =>
    intro acc
    rw [List.foldl_cons, ih]
    have h2 : lastAssoc (kv :: rest) q =
        match lastAssoc rest q with
        | some v => some v
        | none => if kv.1 = q then some kv.2 else none := by
      unfold lastAssoc
      rw [List.foldl_cons, ih]
      exact rfl
    rw [h2]
    cases lastAssoc rest q with
    | some v => simp
    | none => by_cases h : kv.1 = q <;> simp [h]

theorem lastAssoc_cons (kv : String × α) (t : List (String × α)) (q : String) :
    lastAssoc (kv :: t) q =
      match lastAssoc t q with
      | some v => some v
      | none => if kv.1 = q then some kv.2 else none := by
  unfold lastAssoc
  rw [List.foldl_cons, foldl_lastAssoc]
  exact rfl

/-- The parse-result dictionary is insensitive to the completion order as
soon as the qualified names are pairwise distinct. -/
theorem lastAssoc_perm {r₁ r₂ : List (String × α)} (h : r₁.Perm r₂) :
    (r₁.map Prod.fst).Nodup → ∀ q, lastAssoc r₁ q = lastAssoc r₂ q := by
  induction h with
  | nil => intro _ _; rfl
  | cons x h ih =>
    intro hnd q
    rw [lastAssoc_cons, lastAssoc_cons, ih ?tl q]
    case tl =>
      simp only [List.map_cons, List.nodup_cons] at hnd
      exact hnd.2
  | swap x y t =>
    intro hnd q
    have hxy : y.1 ≠ x.1 := by
      simp only [List.map_cons, List.nodup_cons, List.mem_cons] at hnd
      exact fun hc => hnd.1 (Or.inl hc)
    rw [lastAssoc_cons, lastAssoc_cons, lastAssoc_cons, lastAssoc_cons]
    cases lastAssoc t q with
    | some v => simp
    | none =>
      by_cases hx : x.1 = q <;> by_cases hy : y.1 = q <;> simp [hx, hy]
      exact absurd (hy.trans hx.symm) hxy
  | trans h1 h2 ih1 ih2 =>
    intro hnd q
    have hmid : _ := ((h1.map Prod.fst).nodup_iff).mp hnd
    rw [ih1 hnd q, ih2 hmid q]

/-- The whole merge step is insensitive to the completion order under
distinct qualified names. -/
theorem process_modules_perm (pkgs : List PackageRecord)
    (stats : InventoryStats) {r₁ r₂ : List (String × (ModuleRecord ⊕ String))}
    (h : r₁.Perm r₂) (hnd : (r₁.map Prod.fst).Nodup) :
    _process_modules pkgs stats r₁ = _process_modules pkgs stats r₂ := by
  unfold _process_modules
  rw [funext (lastAssoc_perm h hnd)]

theorem update_stats_ok (s : InventoryStats) (m : ModuleRecord) :
    (_update_stats s m).files_parsed_ok = s.files_parsed_ok := rfl

theorem update_stats_err (s : InventoryStats) (m : ModuleRecord) :
    (_update_stats s m).files_parse_errors = s.files_parse_errors := rfl

theorem update_stats_modules (s : InventoryStats) (m : ModuleRecord) :
    (_update_stats s m).modules = s.modules := rfl

/-- Every skeleton the inner merge loop visits feeds exactly one of the
two counters, and the modules count is left alone. -/
theorem mergeSkeletons_counts (lookup : String → Option (ModuleRecord ⊕ String))
    (sks : List ModuleRecord) :
    ∀ stats : InventoryStats,
      (mergeSkeletons lookup stats sks).2.files_parsed_ok +
          (mergeSkeletons lookup stats sks).2.files_parse_errors =
        stats.files_parsed_ok + stats.files_parse_errors + sks.length ∧
      (mergeSkeletons lookup stats sks).2.modules = stats.modules := by
  induction sks with
  | nil => intro stats; simp [mergeSkeletons]
  | cons sk rest ih =>
    intro stats
    unfold mergeSkeletons
    cases lookup sk.qname with
    | none =>
      simp only []
      constructor
      · rw [(ih _).1]; simp; omega
      · rw [(ih _).2]
    | some r =>
      cases r with
      | inl record =>
        simp only []
        constructor
        · rw [(ih _).1, update_stats_ok, update_stats_err]; simp; omega
        · rw [(ih _).2, update_stats_modules]
      | inr e =>
        simp only []
        constructor
        · rw [(ih _).1]; simp; omega
        · rw [(ih _).2]

/-- The package-level merge visits every skeleton of every package
exactly once. -/
theorem mergePackages_counts (lookup : String → Option (ModuleRecord ⊕ String))
    (pkgs : List PackageRecord) :
    ∀ stats : InventoryStats,
      (mergePackages lookup stats pkgs).2.files_parsed_ok +
          (mergePackages lookup stats pkgs).2.files_parse_errors =
        stats.files_parsed_ok + stats.files_parse_errors +
          (pkgs.map (fun p => p.modules.length)).sum ∧
      (mergePackages lookup stats pkgs).2.modules = stats.modules := by
  induction pkgs with
  | nil => intro stats; simp [mergePackages]
  | cons pkg rest ih =>
    intro stats
    unfold mergePackages
    simp only [List.map_cons, List.sum_cons]
    constructor
    · rw [(ih _).1, (mergeSkeletons_counts lookup pkg.modules stats).1]; omega
    · rw [(ih _).2, (mergeSkeletons_counts lookup pkg.modules stats).2]

end ProcessModules


section DecoratorsAndMethods

open Inventory.AstUtils Inventory.NodeExtractor

theorem decoStep_fold_no_marker :
    ∀ (ds : List String) (k : String),
      (∀ d ∈ ds, endsWithPy d "staticmethod" = false ∧
        endsWithPy d "classmethod" = false) →
      ds.foldl decoStep k = k := by
  intro ds
  induction ds with
  | nil => intro k _; rfl
  | cons d rest ih =>
    intro k h
    have hd := h d (by simp)
    rw [List.foldl_cons]
    have : decoStep k d = k := by unfold decoStep; rw [hd.1, hd.2]; simp
    rw [this]
    exact ih k (fun x hx => h x (by simp [hx]))

theorem decoStep_fold_keep_static :
    ∀ (ds : List String),
      (∀ d ∈ ds, endsWithPy d "classmethod" = false) →
      ds.foldl decoStep "static" = "static" := by
  intro ds
  induction ds with
  | nil => intro _; rfl
  | cons d rest ih =>
    intro h
    rw [List.foldl_cons]
    have hstep : decoStep "static" d = "static" := by
      unfold decoStep
      rw [h d (by simp)]
      by_cases hs : endsWithPy d "staticmethod" = true <;> simp [hs]
    rw [hstep]
    exact ih (fun x hx => h x (by simp [hx]))

theorem decoStep_fold_static :
    ∀ (ds : List String) (k : String),
      (∃ d ∈ ds, endsWithPy d "staticmethod" = true) →
      (∀ d ∈ ds, endsWithPy d "classmethod" = false) →
      ds.foldl decoStep k = "static" := by
  intro ds
  induction ds with
  | nil => intro k h _; exact absurd h (by simp)
  | cons d rest ih =>
    intro k hex hnc
    rw [List.foldl_cons]
    by_cases hd : endsWithPy d "staticmethod" = true
    · have hstep : decoStep k d = "static" := by unfold decoStep; rw [hd]; simp
      rw [hstep]
      exact decoStep_fold_keep_static rest (fun x hx => hnc x (by simp [hx]))
    · obtain ⟨e, he, hse⟩ := hex
      rcases List.mem_cons.mp he with rfl | he2
      · exact absurd hse hd
      · exact ih (decoStep k d) ⟨e, he2, hse⟩ (fun x hx => hnc x (by simp [hx]))

theorem decoStep_fold_keep_class :
    ∀ (ds : List String),
      (∀ d ∈ ds, endsWithPy d "staticmethod" = false) →
      ds.foldl decoStep "class" = "class" := by
  intro ds
  induction ds with
  | nil => intro _; rfl
  | cons d rest ih =>
    intro h
    rw [List.foldl_cons]
    have hstep : decoStep "class" d = "class" := by
      unfold decoStep
      rw [h d (by simp)]
      by_cases hc : endsWithPy d "classmethod" = true <;> simp [hc]
    rw [hstep]
    exact ih (fun x hx => h x (by simp [hx]))

theorem decoStep_fold_class :
    ∀ (ds : List String) (k : String),
      (∃ d ∈ ds, endsWithPy d "classmethod" = true) →
      (∀ d ∈ ds, endsWithPy d "staticmethod" = false) →
      ds.foldl decoStep k = "class" := by
  intro ds
  induction ds with
  | nil => intro k h _; exact absurd h (by simp)
  | cons d rest ih =>
    intro k hex hns
    rw [List.foldl_cons]
    by_cases hd : endsWithPy d "classmethod" = true
    · have hstep : decoStep k d = "class" := by
        unfold decoStep
        rw [hns d (by simp), hd]
        simp
      rw [hstep]
      exact decoStep_fold_keep_class rest (fun x hx => hns x (by simp [hx]))
    · obtain ⟨e, he, hce⟩ := hex
      rcases List.mem_cons.mp he with rfl | he2
      · exact absurd hce hd
      · exact ih (decoStep k d) ⟨e, he2, hce⟩ (fun x hx => hns x (by simp [hx]))

theorem _method_name (cfg : Config) (cq name : String) (args : PyArgs)
    (body : List Stmt) (decs : List String) (ret : Option PyExpr) :
    (_method cfg cq name args body decs ret).name = name := rfl

theorem _method_init_kind (cfg : Config) (cq : String) (args : PyArgs)
    (body : List Stmt) (decs : List String) (ret : Option PyExpr) :
    (_method cfg cq "__init__" args body decs ret).kind = "instance" := by
  unfold _method
  simp

theorem _method_kind_of_ne (cfg : Config) (cq name : String) (args : PyArgs)
    (body : List Stmt) (decs : List String) (ret : Option PyExpr)
    (h : ¬ name = "__init__") :
    (_method cfg cq name args body decs ret).kind =
      decs.foldl decoStep "instance" := by
  unfold _method
  simp [h, get_decorator_kind]

theorem methodsOf_init_mem (cfg : Config) (cq : String) (args : PyArgs)
    (body : List Stmt) (decs : List String) (ret : Option PyExpr) :
    ∀ stmts : List Stmt,
      (Stmt.functionDef "__init__" args body decs ret ∈ stmts ∨
        Stmt.asyncFunctionDef "__init__" args body decs ret ∈ stmts) →
      _method cfg cq "__init__" args body decs ret ∈ methodsOf cfg cq stmts := by
  intro stmts
  induction stmts with
  | nil => intro h; rcases h with h | h <;> simp at h
  | cons node rest ih =>
    intro h
    rcases h with h | h
    · rcases List.mem_cons.mp h with rfl | h2
      · unfold methodsOf
        rw [if_pos (Or.inl rfl)]
        exact List.mem_cons_self _ _
      · have hmem := ih (Or.inl h2)
        cases node <;> unfold methodsOf <;>
          first
          | exact hmem
          | (split
             · exact List.mem_cons_of_mem _ hmem
             · exact hmem)
    · rcases List.mem_cons.mp h with rfl | h2
      · unfold methodsOf
        rw [if_pos (Or.inl rfl)]
        exact List.mem_cons_self _ _
      · have hmem := ih (Or.inr h2)
        cases node <;> unfold methodsOf <;>
          first
          | exact hmem
          | (split
             · exact List.mem_cons_of_mem _ hmem
             · exact hmem)

theorem methodsOf_shape (cfg : Config) (cq : String) :
    ∀ (stmts : List Stmt), ∀ m ∈ methodsOf cfg cq stmts,
      ∃ name args body decs ret,
        (Stmt.functionDef name args body decs ret ∈ stmts ∨
          Stmt.asyncFunctionDef name args body decs ret ∈ stmts) ∧
        m = _method cfg cq name args body decs ret := by
  intro stmts
  induction stmts with
  | nil => intro m hm; simp [methodsOf] at hm
  | cons node rest ih =>
    intro m hm
    have step : ∀ m ∈ methodsOf cfg cq rest,
        ∃ name args body decs ret,
          (Stmt.functionDef name args body decs ret ∈ node :: rest ∨
            Stmt.asyncFunctionDef name args body decs ret ∈ node :: rest) ∧
          m = _method cfg cq name args body decs ret := by
      intro m hm
      obtain ⟨name, args, body, decs, ret, hmem, heq⟩ := ih m hm
      exact ⟨name, args, body, decs, ret,
        hmem.imp (List.mem_cons_of_mem _) (List.mem_cons_of_mem _), heq⟩
    cases node with
    | functionDef name args body decs ret =>
      unfold methodsOf at hm
      by_cases hc : name = "__init__" ∨ _vis cfg name = true
      · rw [if_pos hc] at hm
        rcases List.mem_cons.mp hm with rfl | hm2
        · exact ⟨name, args, body, decs, ret, Or.inl (List.mem_cons_self _ _), rfl⟩
        · exact step m hm2
      · rw [if_neg hc] at hm
        exact step m hm
    | asyncFunctionDef name args body decs ret =>
      unfold methodsOf at hm
      by_cases hc : name = "__init__" ∨ _vis cfg name = true
      · rw [if_pos hc] at hm
        rcases List.mem_cons.mp hm with rfl | hm2
        · exact ⟨name, args, body, decs, ret, Or.inr (List.mem_cons_self _ _), rfl⟩
        · exact step m hm2
      · rw [if_neg hc] at hm
        exact step m hm
    | assign targets value => exact step m hm
    | annAssign t a v => exact step m hm
    | classDef n b bo d => exact step m hm
    | exprStmt v => exact step m hm
    | passStmt => exact step m hm

end DecoratorsAndMethods


section CollectFiles

open Inventory.InventoryService

theorem collectLoop_fst (m : List String → Bool) :
    ∀ es : List FsEntry, (collectLoop m es).1 =
      (es.filter (fun e => e.is_file && !e.is_symlink && !(m e.parts))).map
        FsEntry.parts := by
  intro es
  induction es with
  | nil => rfl
  | cons e rest ih =>
    unfold collectLoop
    rw [List.filter_cons]
    by_cases hf : e.is_file = true <;> by_cases hs : e.is_symlink = true <;>
      by_cases hm : m e.parts = true <;>
      simp [hf, hs, hm, ih, Bool.not_eq_true] at * <;> simp [*]

theorem collectLoop_snd (m : List String → Bool) :
    ∀ es : List FsEntry, (collectLoop m es).2 =
      es.countP (fun e => e.is_file && !e.is_symlink && m e.parts) := by
  intro es
  induction es with
  | nil => rfl
  | cons e rest ih =>
    unfold collectLoop
    rw [List.countP_cons]
    by_cases hf : e.is_file = true <;> by_cases hs : e.is_symlink = true <;>
      by_cases hm : m e.parts = true <;>
      simp [hf, hs, hm, ih, Bool.not_eq_true] at * <;> simp [*] <;> omega

end CollectFiles

section Substrings

theorem startsList_iff :
    ∀ (p s : List Char), startsList p s = true ↔ ∃ t, s = p ++ t := by
  intro p
  induction p with
  | nil => intro s; simp [startsList]
  | cons a ps ih =>
    intro s
    cases s with
    | nil =>
      simp only [startsList]
      constructor
      · intro h; exact absurd h (by simp)
      · intro ⟨t, ht⟩; exact absurd ht (by simp)
    | cons c cs =>
      simp only [startsList]
      by_cases hac : a = c
      · subst hac
        rw [if_pos rfl, ih cs]
        constructor
        · intro ⟨t, ht⟩; exact ⟨t, by rw [ht]; rfl⟩
        · intro ⟨t, ht⟩
          refine ⟨t, ?_⟩
          have := List.cons_append a ps t ▸ ht
          injection this with h1 h2
      · rw [if_neg hac]
        constructor
        · intro h; exact absurd h (by simp)
        · intro ⟨t, ht⟩
          rw [List.cons_append] at ht
          injection ht with h1 h2
          exact absurd h1.symm hac

theorem startsList_append_left {p a : List Char} (b : List Char)
    (h : p.length ≤ a.length) : startsList p (a ++ b) = startsList p a := by
  induction p generalizing a with
  | nil => simp [startsList]
  | cons x ps ih =>
    cases a with
    | nil => simp at h
    | cons c cs =>
      simp only [List.cons_append, startsList]
      by_cases hx : x = c
      · rw [if_pos hx, if_pos hx]
        exact ih (by simpa using Nat.le_of_succ_le_succ h)
      · rw [if_neg hx, if_neg hx]

theorem startsList_of_longer {p s : List Char} (h : s.length < p.length) :
    startsList p s = false := by
  induction p generalizing s with
  | nil => simp at h
  | cons x ps ih =>
    cases s with
    | nil => simp [startsList]
    | cons c cs =>
      simp only [startsList]
      by_cases hx : x = c
      · rw [if_pos hx]
        exact ih (by simpa using Nat.lt_of_succ_lt_succ h)
      · rw [if_neg hx]

theorem containsList_iff :
    ∀ (pat s : List Char), containsList pat s = true ↔ ∃ u v, s = u ++ pat ++ v := by
  intro pat s
  induction s with
  | nil =>
    simp only [containsList]
    rw [startsList_iff]
    constructor
    · intro ⟨t, ht⟩
      exact ⟨[], t, by simpa using ht⟩
    · intro ⟨u, v, huv⟩
      have hu : u = [] := by
        cases u with
        | nil => rfl
        | cons x xs => simp at huv
      subst hu
      exact ⟨v, by simpa using huv⟩
  | cons c cs ih =>
    simp only [containsList, Bool.or_eq_true]
    rw [startsList_iff, ih]
    constructor
    · intro h
      rcases h with ⟨t, ht⟩ | ⟨u, v, huv⟩
      · exact ⟨[], t, by simpa using ht⟩
      · exact ⟨c :: u, v, by rw [huv]; rfl⟩
    · intro ⟨u, v, huv⟩
      cases u with
      | nil => exact Or.inl ⟨v, by simpa using huv⟩
      | cons x xs =>
        right
        rw [List.cons_append, List.cons_append] at huv
        injection huv with h1 h2
        exact ⟨xs, v, h2⟩

theorem containsList_cons_false {pat : List Char} {c : Char} {cs : List Char}
    (h : containsList pat (c :: cs) = false) :
    startsList pat (c :: cs) = false ∧ containsList pat cs = false := by
  have := h
  unfold containsList at this
  exact ⟨by cases hx : startsList pat (c :: cs) <;> simp [hx] at this ⊢,
         by cases hx : containsList pat cs <;> simp [hx] at this ⊢⟩

theorem containsList_mem {pat s : List Char} (h : containsList pat s = true) :
    ∀ x ∈ pat, x ∈ s := by
  intro x hx
  obtain ⟨u, v, huv⟩ := (containsList_iff pat s).mp h
  rw [huv]
  simp [hx]

theorem replaceFuel_congr {pat : List Char} (repl : List Char)
    (hp : pat ≠ []) :
    ∀ (n m : Nat) (s : List Char), s.length ≤ n → s.length ≤ m →
      replaceFuel pat repl n s = replaceFuel pat repl m s := by
  intro n
  induction n with
  | zero =>
    intro m s hn _
    have : s = [] := List.eq_nil_of_length_eq_zero (Nat.le_zero.mp hn)
    subst this
    cases m <;> rfl
  | succ n ih =>
    intro m s hn hm
    cases s with
    | nil => cases m <;> rfl
    | cons c cs =>
      cases m with
      | zero => simp at hm
      | succ m' =>
        have hpl : 1 ≤ pat.length := by
          cases pat with
          | nil => exact absurd rfl hp
          | cons _ _ => simp
        simp only [replaceFuel]
        by_cases hcond : startsList pat (c :: cs) = true ∧ pat ≠ []
        · rw [if_pos hcond, if_pos hcond]
          have hlen : ((c :: cs).drop pat.length).length ≤ n := by
            rw [List.length_drop]
            simp only [List.length_cons] at hn ⊢
            omega
          have hlen2 : ((c :: cs).drop pat.length).length ≤ m' := by
            rw [List.length_drop]
            simp only [List.length_cons] at hm ⊢
            omega
          rw [ih m' _ hlen hlen2]
        · rw [if_neg hcond, if_neg hcond]
          have h1 : cs.length ≤ n := by simp at hn; omega
          have h2 : cs.length ≤ m' := by simp at hm; omega
          rw [ih m' cs h1 h2]

theorem listReplace_of_not_contains {pat repl s : List Char} (hp : pat ≠ [])
    (h : containsList pat s = false) : listReplace pat repl s = s := by
  induction s with
  | nil => rfl
  | cons c cs ih =>
    obtain ⟨hst, hct⟩ := containsList_cons_false h
    show replaceFuel pat repl (cs.length + 1) (c :: cs) = c :: cs
    simp only [replaceFuel]
    rw [if_neg (by simp [hst])]
    have h2 : replaceFuel pat repl cs.length cs = listReplace pat repl cs := rfl
    rw [h2, ih hct]

theorem listReplace_head {pat repl t : List Char} (hp : pat ≠ []) :
    listReplace pat repl (pat ++ t) = repl ++ listReplace pat repl t := by
  cases pat with
  | nil => exact absurd rfl hp
  | cons x xs =>
    show replaceFuel (x :: xs) repl ((xs ++ t).length + 1) (x :: (xs ++ t)) =
      repl ++ listReplace (x :: xs) repl t
    simp only [replaceFuel]
    rw [if_pos ⟨(startsList_iff (x :: xs) (x :: (xs ++ t))).mpr ⟨t, by simp⟩, by simp⟩]
    have hdrop : List.drop (x :: xs).length (x :: (xs ++ t)) = t := by
      have : x :: (xs ++ t) = (x :: xs) ++ t := by simp
      rw [this, List.drop_left]
    rw [hdrop]
    congr 1
    exact replaceFuel_congr repl (by simp) _ _ t (by simp) (Nat.le_refl _)

end Substrings


section StraddleAndJoin

theorem splitFree_starts {pat a b : List Char} (hp : pat ≠ [])
    (hns : noStraddle pat) (hnc : containsList pat a = false) (hne : a ≠ []) :
    startsList pat (a ++ (pat ++ b)) = false := by
  cases hx : startsList pat (a ++ (pat ++ b)) with
  | false => rfl
  | true =>
    exfalso
    obtain ⟨t, ht⟩ := (startsList_iff _ _).mp hx
    by_cases hlen : pat.length ≤ a.length
    · have h2 : startsList pat a = true := by
        rw [← startsList_append_left (pat ++ b) hlen]
        exact hx
      cases a with
      | nil => exact hne rfl
      | cons c cs =>
        have hc : containsList pat (c :: cs) = true := by
          unfold containsList
          rw [h2]
          simp
        rw [hc] at hnc
        exact absurd hnc (by simp)
    · push_neg at hlen
      have htake := congrArg (List.take pat.length) ht
      rw [List.take_append_eq_append_take,
        List.take_of_length_le (Nat.le_of_lt hlen),
        List.take_append_eq_append_take,
        show pat.length - a.length - pat.length = 0 from by omega,
        List.take_zero, List.append_nil,
        List.take_append_eq_append_take,
        List.take_of_length_le (Nat.le_refl pat.length), Nat.sub_self,
        List.take_zero, List.append_nil] at htake
      have hdrop : pat.drop a.length = pat.take (pat.length - a.length) := by
        have := congrArg (List.drop a.length) htake.symm
        rwa [List.drop_left] at this
      exact hns a.length (List.length_pos.mpr hne) hlen hdrop

theorem listReplace_append_end {pat repl : List Char} (hp : pat ≠ [])
    (hns : noStraddle pat) :
    ∀ {a : List Char} (b : List Char), containsList pat a = false →
      listReplace pat repl (a ++ (pat ++ b)) =
        a ++ repl ++ listReplace pat repl b := by
  intro a
  induction a with
  | nil => intro b _; simpa using listReplace_head hp
  | cons c cs ih =>
    intro b hnc
    obtain ⟨hstc, hctc⟩ := containsList_cons_false hnc
    have hsts : startsList pat ((c :: cs) ++ (pat ++ b)) = false :=
      splitFree_starts hp hns hnc (by simp)
    simp only [List.cons_append] at hsts
    show replaceFuel pat repl ((cs ++ (pat ++ b)).length + 1)
        (c :: (cs ++ (pat ++ b))) = (c :: cs) ++ repl ++ listReplace pat repl b
    simp only [replaceFuel]
    rw [if_neg (by simp [hsts])]
    have hf : replaceFuel pat repl (cs ++ (pat ++ b)).length (cs ++ (pat ++ b)) =
        listReplace pat repl (cs ++ (pat ++ b)) := rfl
    rw [hf, ih b hctc]
    simp

theorem joinC_cons (sep : Char) (p : List Char) (rest : List (List Char)) :
    joinC sep (p :: rest) =
      p ++ (if rest = [] then [] else sep :: joinC sep rest) := by
  cases rest with
  | nil => simp [joinC]
  | cons q ps => simp [joinC]

theorem joinC_append_last (sep : Char) (x y : List Char) :
    ∀ ds, joinC sep (ds ++ [x ++ y]) = joinC sep (ds ++ [x]) ++ y := by
  intro ds
  induction ds with
  | nil => simp [joinC]
  | cons d rest ih =>
    rw [List.cons_append, List.cons_append, joinC_cons, joinC_cons,
      if_neg (by simp), if_neg (by simp), ih]
    simp

theorem joinC_append_sep (sep : Char) (x : List Char) :
    ∀ ds, ds ≠ [] → joinC sep (ds ++ [x]) = joinC sep ds ++ sep :: x := by
  intro ds
  induction ds with
  | nil => intro h; exact absurd rfl h
  | cons d rest ih =>
    intro _
    cases rest with
    | nil => simp [joinC]
    | cons r rs =>
      rw [List.cons_append, joinC_cons, joinC_cons, if_neg (by simp),
        if_neg (by simp), ih (by simp)]
      simp [joinC_cons]

theorem starts_append_sep_false {pat : List Char} {sep : Char}
    (hsep : sep ∉ pat) {p t : List Char} (hst : startsList pat p = false) :
    startsList pat (p ++ sep :: t) = false := by
  by_cases hlen : pat.length ≤ p.length
  · rw [startsList_append_left _ hlen]
    exact hst
  · push_neg at hlen
    cases hx : startsList pat (p ++ sep :: t) with
    | false => rfl
    | true =>
      exfalso
      obtain ⟨u, hu⟩ := (startsList_iff _ _).mp hx
      have htake := congrArg (List.take (p.length + 1)) hu
      rw [List.take_append_eq_append_take,
        List.take_of_length_le (Nat.le_succ p.length),
        Nat.add_sub_cancel_left,
        List.take_append_eq_append_take,
        Nat.sub_eq_zero_of_le (by omega), List.take_zero,
        List.append_nil] at htake
      simp only [List.take_succ_cons, List.take_zero] at htake
      have hmem : sep ∈ pat.take (p.length + 1) := by
        rw [← htake]
        simp
      exact hsep (List.take_subset _ _ hmem)

end StraddleAndJoin


section JoinContains

theorem contains_append_sep {pat : List Char} {sep : Char} (hsep : sep ∉ pat)
    (hp : pat ≠ []) :
    ∀ {p t : List Char}, containsList pat p = false →
      containsList pat t = false →
      containsList pat (p ++ sep :: t) = false := by
  intro p
  induction p with
  | nil =>
    intro t _ hct
    show containsList pat (sep :: t) = false
    unfold containsList
    have hst : startsList pat (sep :: t) = false := by
      cases pat with
      | nil => exact absurd rfl hp
      | cons x xs =>
        simp only [startsList]
        rw [if_neg (fun h => hsep (by rw [← h]; exact List.mem_cons_self x xs))]
    rw [hst, hct]
    rfl
  | cons c cs ih =>
    intro t hcp hct
    obtain ⟨hstc, hctc⟩ := containsList_cons_false hcp
    show containsList pat (c :: (cs ++ sep :: t)) = false
    unfold containsList
    have h1 : containsList pat (cs ++ sep :: t) = false := ih hctc hct
    have h2 : startsList pat ((c :: cs) ++ sep :: t) = false :=
      starts_append_sep_false hsep hstc
    simp only [List.cons_append] at h2
    rw [h1, h2]
    rfl

theorem contains_join_sepfree {pat : List Char} {sep : Char} (hsep : sep ∉ pat)
    (hp : pat ≠ []) :
    ∀ parts, (∀ part ∈ parts, containsList pat part = false) →
      containsList pat (joinC sep parts) = false := by
  intro parts
  induction parts with
  | nil =>
    intro _
    show containsList pat [] = false
    unfold containsList
    cases pat with
    | nil => exact absurd rfl hp
    | cons x xs => simp [startsList]
  | cons p rest ih =>
    intro h
    cases rest with
    | nil => exact h p (by simp)
    | cons q ps =>
      rw [joinC_cons, if_neg (by simp)]
      exact contains_append_sep hsep hp (h p (by simp))
        (ih (fun x hx => h x (by simp [hx])))

theorem contains_slashpat_skip {q : List Char} {sep : Char} :
    ∀ {p : List Char} (X : List Char), sep ∉ p →
      containsList (sep :: q) (p ++ X) = containsList (sep :: q) X := by
  intro p
  induction p with
  | nil => intro X _; simp
  | cons c cs ih =>
    intro X hc
    have hsts : startsList (sep :: q) (c :: (cs ++ X)) = false := by
      simp only [startsList]
      rw [if_neg (fun h => hc (by rw [h]; exact List.mem_cons_self c cs))]
    have hstep : containsList (sep :: q) ((c :: cs) ++ X) =
        (startsList (sep :: q) (c :: (cs ++ X)) ||
          containsList (sep :: q) (cs ++ X)) := rfl
    rw [hstep, hsts, ih X (fun hm => hc (List.mem_cons_of_mem _ hm))]
    simp

theorem starts_q_join_false {q : List Char} {sep : Char} (hsep : sep ∉ q)
    (hqne : q ≠ []) :
    ∀ parts, (∀ part ∈ parts, startsList q part = false) →
      startsList q (joinC sep parts) = false := by
  intro parts hst
  cases parts with
  | nil =>
    show startsList q [] = false
    cases q with
    | nil => exact absurd rfl hqne
    | cons x xs => simp [startsList]
  | cons p rest =>
    cases rest with
    | nil => exact hst p (by simp)
    | cons r rs =>
      rw [joinC_cons, if_neg (by simp)]
      exact starts_append_sep_false hsep (hst p (by simp))

theorem contains_join_slashpat {q : List Char} {sep : Char} (hsep : sep ∉ q)
    (hqne : q ≠ []) :
    ∀ parts, (∀ part ∈ parts, startsList q part = false) →
      (∀ part ∈ parts, sep ∉ part) →
      containsList (sep :: q) (joinC sep parts) = false := by
  intro parts
  induction parts with
  | nil =>
    intro _ _
    show containsList (sep :: q) [] = false
    simp [containsList, startsList]
  | cons p rest ih =>
    intro hs hf
    cases rest with
    | nil =>
      have hskip : containsList (sep :: q) (p ++ []) = containsList (sep :: q) [] :=
        contains_slashpat_skip ([] : List Char) (hf p (by simp))
      simp only [List.append_nil] at hskip
      show containsList (sep :: q) p = false
      rw [hskip]
      simp [containsList, startsList]
    | cons r rs =>
      rw [joinC_cons, if_neg (by simp),
        contains_slashpat_skip _ (hf p (by simp))]
      show containsList (sep :: q) (sep :: joinC sep (r :: rs)) = false
      unfold containsList
      have h1 : startsList (sep :: q) (sep :: joinC sep (r :: rs)) = false := by
        simp only [startsList, if_pos rfl]
        exact starts_q_join_false hsep hqne (r :: rs)
          (fun x hx => hs x (by simp [hx]))
      rw [h1, ih (fun x hx => hs x (by simp [hx])) (fun x hx => hf x (by simp [hx]))]
      rfl

theorem listReplace_single (c d : Char) :
    ∀ s : List Char, listReplace [c] [d] s =
      s.map (fun x => if x = c then d else x) := by
  intro s
  induction s with
  | nil => rfl
  | cons x xs ih =>
    show replaceFuel [c] [d] (xs.length + 1) (x :: xs) = _
    simp only [replaceFuel]
    by_cases hx : x = c
    · subst hx
      rw [if_pos ⟨by simp [startsList], by simp⟩,
        show List.drop [x].length (x :: xs) = xs from rfl,
        show replaceFuel [x] [d] xs.length xs = listReplace [x] [d] xs from rfl,
        ih]
      simp
    · have hst : startsList [c] (x :: xs) = false := by
        simp only [startsList]
        rw [if_neg (fun h => hx h.symm)]
      rw [if_neg (by simp [hst]),
        show replaceFuel [c] [d] xs.length xs = listReplace [c] [d] xs from rfl,
        ih]
      simp [hx]

theorem map_joinC (f : Char → Char) (sep : Char) :
    ∀ parts, (joinC sep parts).map f = joinC (f sep) (parts.map (List.map f)) := by
  intro parts
  induction parts with
  | nil => rfl
  | cons p rest ih =>
    cases rest with
    | nil => rfl
    | cons q ps =>
      show (p ++ sep :: joinC sep (q :: ps)).map f = _
      rw [List.map_append, List.map_cons, ih]
      rfl

theorem map_fixed {f : Char → Char} :
    ∀ {part : List Char}, (∀ x ∈ part, f x = x) → part.map f = part := by
  intro part
  induction part with
  | nil => intro _; rfl
  | cons x xs ih =>
    intro h
    rw [List.map_cons, h x (by simp), ih (fun y hy => h y (by simp [hy]))]

end JoinContains


section QnameChain

theorem dropWhile_slash_join {p : List Char} (rest : List (List Char))
    (hne : p ≠ []) (hfree : ('/' : Char) ∉ p) :
    (joinC '/' (p :: rest)).dropWhile (fun c => decide (c = '/')) =
      joinC '/' (p :: rest) := by
  rw [joinC_cons]
  cases p with
  | nil => exact absurd rfl hne
  | cons c cs =>
    have hc : ¬ c = '/' := fun h => hfree (by rw [h]; exact List.mem_cons_self _ _)
    rw [List.cons_append, List.dropWhile_cons, if_neg (by simpa using hc)]

theorem map_parts_fixed :
    ∀ parts : List (List Char), (∀ part ∈ parts, ('/' : Char) ∉ part) →
      parts.map (List.map (fun c => if c = '/' then '.' else c)) = parts := by
  intro parts
  induction parts with
  | nil => intro _; rfl
  | cons p rest ih =>
    intro h
    rw [List.map_cons, ih (fun x hx => h x (by simp [hx])), map_fixed ?hfix]
    case hfix =>
      intro x hx
      have hx2 : ¬ x = '/' := fun hc => h p (by simp) (hc ▸ hx)
      simp [hx2]

theorem fold_slash_join (parts : List (List Char))
    (hfree : ∀ part ∈ parts, ('/' : Char) ∉ part) :
    listReplace "/".data ".".data (joinC '/' parts) = joinC '.' parts := by
  have h1 : "/".data = ['/'] := rfl
  have h2 : ".".data = ['.'] := rfl
  rw [h1, h2, listReplace_single, map_joinC, map_parts_fixed parts hfree]
  simp

theorem strip_py_join (dirs : List (List Char)) (stem : List Char)
    (hfree : ∀ part ∈ dirs ++ [stem], containsList ".py".data part = false) :
    listReplace ".py".data [] (joinC '/' (dirs ++ [stem ++ ".py".data])) =
      joinC '/' (dirs ++ [stem]) := by
  have hns : noStraddle ".py".data := by
    intro k h1 h2
    have hl : (".py".data).length = 3 := by decide
    rw [hl] at h2
    have hk : k = 1 ∨ k = 2 := by omega
    rcases hk with rfl | rfl <;> decide
  have hsepfree : ('/' : Char) ∉ ".py".data := by decide
  have hpyne : ".py".data ≠ [] := by decide
  have hnc : containsList ".py".data (joinC '/' (dirs ++ [stem])) = false :=
    contains_join_sepfree hsepfree hpyne _ hfree
  rw [joinC_append_last '/' stem ".py".data dirs]
  have hrw : listReplace ".py".data []
      (joinC '/' (dirs ++ [stem]) ++ (".py".data ++ [])) =
      joinC '/' (dirs ++ [stem]) ++ [] ++ listReplace ".py".data [] [] :=
    listReplace_append_end hpyne hns [] hnc
  rw [show listReplace ".py".data ([] : List Char) [] = [] from rfl] at hrw
  simp only [List.append_nil] at hrw
  exact hrw

theorem strip_initpat_identity (parts : List (List Char))
    (hstarts : ∀ part ∈ parts, startsList "__init__".data part = false)
    (hfree : ∀ part ∈ parts, ('/' : Char) ∉ part) :
    listReplace "/__init__".data [] (joinC '/' parts) = joinC '/' parts := by
  have hpat : "/__init__".data = '/' :: "__init__".data := by decide
  apply listReplace_of_not_contains (by decide)
  rw [hpat]
  exact contains_join_slashpat (by decide) (by decide) parts hstarts hfree

theorem strip_initpat_last (dirs : List (List Char)) (hne : dirs ≠ [])
    (hstarts : ∀ part ∈ dirs, startsList "__init__".data part = false)
    (hfree : ∀ part ∈ dirs, ('/' : Char) ∉ part) :
    listReplace "/__init__".data []
        (joinC '/' (dirs ++ ["__init__".data])) = joinC '/' dirs := by
  have hns : noStraddle "/__init__".data := by
    intro k h1 h2
    have hl : ("/__init__".data).length = 9 := by decide
    rw [hl] at h2
    interval_cases k <;> decide
  have hpat : "/__init__".data = '/' :: "__init__".data := by decide
  have hnc : containsList "/__init__".data (joinC '/' dirs) = false := by
    rw [hpat]
    exact contains_join_slashpat (by decide) (by decide) dirs hstarts hfree
  rw [joinC_append_sep '/' "__init__".data dirs hne]
  have hrw : listReplace "/__init__".data []
      (joinC '/' dirs ++ ("/__init__".data ++ [])) =
      joinC '/' dirs ++ [] ++ listReplace "/__init__".data [] [] :=
    listReplace_append_end (by decide) hns [] hnc
  rw [show listReplace "/__init__".data ([] : List Char) [] = [] from rfl] at hrw
  simp only [List.append_nil] at hrw
  rw [show joinC '/' dirs ++ '/' :: "__init__".data =
    joinC '/' dirs ++ "/__init__".data from by rw [hpat]]
  exact hrw

end QnameChain


section DotJoinOrder

theorem cmpChar_gt_of_lt {a b : Char} (h : Char.toNat a < Char.toNat b) :
    cmpChar b a = Ordering.gt := by
  unfold cmpChar
  rw [if_neg (by omega), if_pos h]

theorem cmpChar_lt_of_lt {a b : Char} (h : Char.toNat a < Char.toNat b) :
    cmpChar a b = Ordering.lt := by
  unfold cmpChar
  rw [if_pos h]

theorem cmp_append_dot_right :
    ∀ (p : List Char), (∀ ch ∈ p, Char.toNat '.' < Char.toNat ch) →
      ∀ (q t : List Char), lexCmp cmpChar p (q ++ '.' :: t) =
        match lexCmp cmpChar p q with
        | Ordering.eq => Ordering.lt
        | o => o := by
  intro p
  induction p with
  | nil =>
    intro _ q t
    cases q <;> simp [lexCmp]
  | cons x xs ih =>
    intro hp q t
    cases q with
    | nil =>
      have hx : cmpChar x '.' = Ordering.gt := cmpChar_gt_of_lt (hp x (by simp))
      simp [lexCmp, hx]
    | cons y ys =>
      simp only [List.cons_append, lexCmp]
      cases hxy : cmpChar x y with
      | eq => exact ih (fun ch hch => hp ch (by simp [hch])) ys t
      | lt => rfl
      | gt => rfl

theorem cmp_append_dot_left :
    ∀ (q : List Char), (∀ ch ∈ q, Char.toNat '.' < Char.toNat ch) →
      ∀ (p t : List Char), lexCmp cmpChar (p ++ '.' :: t) q =
        match lexCmp cmpChar p q with
        | Ordering.eq => Ordering.gt
        | o => o := by
  intro q
  induction q with
  | nil =>
    intro _ p t
    cases p <;> simp [lexCmp]
  | cons y ys ih =>
    intro hq p t
    cases p with
    | nil =>
      have hy : cmpChar '.' y = Ordering.lt := cmpChar_lt_of_lt (hq y (by simp))
      simp [lexCmp, hy]
    | cons x xs =>
      simp only [List.cons_append, lexCmp]
      cases hxy : cmpChar x y with
      | eq => exact ih (fun ch hch => hq ch (by simp [hch])) xs t
      | lt => rfl
      | gt => rfl

theorem cmp_append_dot_both :
    ∀ (p : List Char), (∀ ch ∈ p, Char.toNat '.' < Char.toNat ch) →
      ∀ (q : List Char), (∀ ch ∈ q, Char.toNat '.' < Char.toNat ch) →
      ∀ (X Y : List Char),
        lexCmp cmpChar (p ++ '.' :: X) (q ++ '.' :: Y) =
          match lexCmp cmpChar p q with
          | Ordering.eq => lexCmp cmpChar X Y
          | o => o := by
  intro p
  induction p with
  | nil =>
    intro _ q hq X Y
    cases q with
    | nil =>
      simp only [List.nil_append, lexCmp]
      rw [show cmpChar '.' '.' = Ordering.eq from by decide]
    | cons y ys =>
      have hy : cmpChar '.' y = Ordering.lt := cmpChar_lt_of_lt (hq y (by simp))
      simp [lexCmp, hy]
  | cons x xs ih =>
    intro hp q hq X Y
    cases q with
    | nil =>
      have hx : cmpChar x '.' = Ordering.gt := cmpChar_gt_of_lt (hp x (by simp))
      simp [lexCmp, hx]
    | cons y ys =>
      simp only [List.cons_append, lexCmp]
      cases hxy : cmpChar x y with
      | eq =>
        exact ih (fun ch hch => hp ch (by simp [hch])) ys
          (fun ch hch => hq ch (by simp [hch])) X Y
      | lt => rfl
      | gt => rfl

theorem joinC_dot_cmp :
    ∀ (d₁ : List (List Char)),
      (∀ part ∈ d₁, part ≠ [] ∧ ∀ ch ∈ part, Char.toNat '.' < Char.toNat ch) →
    ∀ (d₂ : List (List Char)),
      (∀ part ∈ d₂, part ≠ [] ∧ ∀ ch ∈ part, Char.toNat '.' < Char.toNat ch) →
      lexCmp cmpChar (joinC '.' d₁) (joinC '.' d₂) =
        lexCmp (lexCmp cmpChar) d₁ d₂ := by
  intro d₁
  induction d₁ with
  | nil =>
    intro _ d₂ h₂
    cases d₂ with
    | nil => rfl
    | cons q qs =>
      obtain ⟨hqne, _⟩ := h₂ q (by simp)
      rw [joinC_cons]
      cases q with
      | nil => exact absurd rfl hqne
      | cons c cs => simp [lexCmp]
  | cons p ps ih =>
    intro h₁ d₂ h₂
    cases d₂ with
    | nil =>
      obtain ⟨hpne, _⟩ := h₁ p (by simp)
      rw [joinC_cons]
      cases p with
      | nil => exact absurd rfl hpne
      | cons c cs => simp [lexCmp]
    | cons q qs =>
      rw [joinC_cons, joinC_cons]
      by_cases hps : ps = [] <;> by_cases hqs : qs = []
      · subst hps
        subst hqs
        simp only [if_true, List.append_nil]
        show lexCmp cmpChar p q =
          (match lexCmp cmpChar p q with
            | Ordering.eq => lexCmp (lexCmp cmpChar) [] []
            | o => o)
        cases hpq : lexCmp cmpChar p q <;> simp [lexCmp]
      · subst hps
        rw [if_neg hqs]
        simp only [if_true, List.append_nil]
        rw [cmp_append_dot_right p (h₁ p (by simp)).2 q (joinC '.' qs)]
        show _ = (match lexCmp cmpChar p q with
          | Ordering.eq => lexCmp (lexCmp cmpChar) [] qs
          | o => o)
        cases qs with
        | nil => exact absurd rfl hqs
        | cons r rs => cases hpq : lexCmp cmpChar p q <;> simp [lexCmp]
      · subst hqs
        rw [if_neg hps]
        simp only [if_true, List.append_nil]
        rw [cmp_append_dot_left q (h₂ q (by simp)).2 p (joinC '.' ps)]
        show _ = (match lexCmp cmpChar p q with
          | Ordering.eq => lexCmp (lexCmp cmpChar) ps []
          | o => o)
        cases ps with
        | nil => exact absurd rfl hps
        | cons r rs => cases hpq : lexCmp cmpChar p q <;> simp [lexCmp]
      · rw [if_neg hps, if_neg hqs]
        rw [cmp_append_dot_both p (h₁ p (by simp)).2 q (h₂ q (by simp)).2
          (joinC '.' ps) (joinC '.' qs)]
        have hih := ih (fun x hx => h₁ x (by simp [hx])) qs
          (fun x hx => h₂ x (by simp [hx]))
        show _ = (match lexCmp cmpChar p q with
          | Ordering.eq => lexCmp (lexCmp cmpChar) ps qs
          | o => o)
        cases hpq : lexCmp cmpChar p q <;> simp [hih]

theorem lexCmp_map {α β : Type} (c : β → β → Ordering) (f : α → β) :
    ∀ l m : List α, lexCmp c (l.map f) (m.map f) =
      lexCmp (fun a b => c (f a) (f b)) l m := by
  intro l
  induction l with
  | nil => intro m; cases m <;> simp [lexCmp]
  | cons a as ih =>
    intro m
    cases m with
    | nil => simp [lexCmp]
    | cons b bs =>
      simp only [List.map_cons, lexCmp]
      cases c (f a) (f b) <;> simp [ih bs]

/-- Under well-behaved component names, the pathlib parts order and the
Python string order of the dot-joined qualified names agree. -/
theorem partsLeB_eq_dotJoin_leB (d₁ d₂ : List String)
    (h₁ : ∀ part ∈ d₁, goodPart part) (h₂ : ∀ part ∈ d₂, goodPart part) :
    partsLeB d₁ d₂ = strLeB (dotJoin d₁) (dotJoin d₂) := by
  have hdata : ∀ d : List String, (∀ part ∈ d, goodPart part) →
      ∀ part ∈ d.map String.data, part ≠ [] ∧
        ∀ ch ∈ part, Char.toNat '.' < Char.toNat ch := by
    intro d hd part hpart
    obtain ⟨s, hs, rfl⟩ := List.mem_map.mp hpart
    obtain ⟨hne, _, hgt⟩ := hd s hs
    exact ⟨hne, hgt⟩
  have hcmp : strCmp (dotJoin d₁) (dotJoin d₂) = partsCmp d₁ d₂ := by
    show lexCmp cmpChar (joinC '.' (d₁.map String.data))
        (joinC '.' (d₂.map String.data)) = partsCmp d₁ d₂
    rw [joinC_dot_cmp (d₁.map String.data) (hdata d₁ h₁) (d₂.map String.data)
      (hdata d₂ h₂), lexCmp_map]
    rfl
  unfold partsLeB strLeB
  rw [hcmp]

end DotJoinOrder

end Inventory

namespace Inventory

section PackageQname

open Inventory.InventoryService

theorem packageQname_normalize (cfg : Config) (d : List String) (hne : d ≠ [])
    (hgood : ∀ part ∈ d, goodPart part) :
    packageQname (normalize_rel cfg d) = dotJoin d := by
  have hjoin : ∀ s : String,
      packageQname s =
        ⟨listReplace "/".data ".".data
          (s.data.dropWhile (fun c => decide (c = '/')))⟩ := fun _ => rfl
  have hcore : (joinC '/' (d.map String.data)).dropWhile
      (fun c => decide (c = '/')) = joinC '/' (d.map String.data) := by
    cases d with
    | nil => exact absurd rfl hne
    | cons p ds =>
      obtain ⟨hpne, hpfree, _⟩ := hgood p (by simp)
      rw [List.map_cons]
      exact dropWhile_slash_join (ds.map String.data) hpne hpfree
  have hfold : listReplace "/".data ".".data (joinC '/' (d.map String.data)) =
      joinC '.' (d.map String.data) := by
    apply fold_slash_join
    intro part hpart
    obtain ⟨s, hs, rfl⟩ := List.mem_map.mp hpart
    exact (hgood s hs).2.1
  unfold normalize_rel joinParts
  rw [if_neg hne]
  by_cases hl : cfg.leading_slash_in_paths = true
  · rw [if_pos hl, hjoin]
    have hdata : ("/" ++ (⟨joinC '/' (d.map String.data)⟩ : String)).data =
        '/' :: joinC '/' (d.map String.data) := by
      rw [String.data_append]
      rfl
    rw [hdata, List.dropWhile_cons, if_pos (by simp), hcore, hfold]
    rfl
  · rw [if_neg hl, hjoin]
    have hdata : ((⟨joinC '/' (d.map String.data)⟩ : String)).data =
        joinC '/' (d.map String.data) := rfl
    rw [hdata, hcore, hfold]
    rfl

end PackageQname

end Inventory

/-! ## Claim theorems -/

/-- C1: the end-to-end example repository (pkg/__init__.py empty, pkg/a.py
holding CONST = 1 and def f(): pass) run with package_mode=require_init_py,
include_constants, include_functions and public_only produces exactly one
package pkg — but with two modules (pkg, from the __init__ file, and
pkg.a), and the pkg.a module has an empty constants list: a plain
assignment has no attribute called target (ast.Assign stores targets), so
CONST = 1 is never considered a constant candidate.  The function part of
the claim holds: pkg.a.f appears with an empty parameter list and no
return annotation.  This theorem evaluates the code at the claimed input
and exhibits the divergence. -/
theorem claim_C1_end_to_end :
    Inventory.InventoryService.runRepo Inventory.exCfg Inventory.exRepo =
      ([{ path := "pkg", qname := "pkg", is_package := true,
          modules := [Inventory.exModInit, Inventory.exModA] }],
       { files_scanned := 2, files_excluded := 0, files_parsed_ok := 2,
         files_parse_errors := 0, packages := 1, modules := 2, classes := 0,
         methods := 0, constants := 0, enums := 0, functions := 1 }) := by
  decide

/-- C3: the uppercase constant-visibility policy never behaves as
claimed.  The plain assignment MAX_SIZE = 10 yields no candidate at all
(the absent target attribute blocks it before the policy check).  The
annotated MAX_SIZE: int = 10, which does reach the check, is not kept:
name.isupper() is true, so the check touches AstUtils.re -- an attribute
ast_ops.py never defines -- raising AttributeError, and the worker turns
the whole module into a Parse Error instead of a report entry.  Likewise
_MAX: int = 10 is not dropped silently but raises the same error.  Only
max_size: int = 10 is rejected silently, because isupper() fails before
the broken lookup. -/
theorem claim_C3_uppercase_policy :
    Inventory.NodeExtractor.extract Inventory.exCfgUp "m"
        [Inventory.Stmt.assign [Inventory.PyExpr.name "MAX_SIZE"]
          (Inventory.PyExpr.constant (Inventory.Lit.intL 10))] "module"
      = Except.ok ⟨[], [], [], []⟩ ∧
    Inventory.NodeExtractor.extract Inventory.exCfgUp "m"
        [Inventory.Stmt.annAssign (Inventory.PyExpr.name "MAX_SIZE")
          (Inventory.PyExpr.name "int")
          (some (Inventory.PyExpr.constant (Inventory.Lit.intL 10)))]
        "module" =
      Except.error "type object \x27AstUtils\x27 has no attribute \x27re\x27" ∧
    Inventory.ModuleWorker.parse_file Inventory.exCfgUp "m.py"
        (Except.ok
          [Inventory.Stmt.annAssign (Inventory.PyExpr.name "MAX_SIZE")
            (Inventory.PyExpr.name "int")
            (some (Inventory.PyExpr.constant (Inventory.Lit.intL 10)))]) =
      ("m", Sum.inr
        "Parse Error: type object \x27AstUtils\x27 has no attribute \x27re\x27") ∧
    Inventory.NodeExtractor.extract Inventory.exCfgUp "m"
        [Inventory.Stmt.annAssign (Inventory.PyExpr.name "max_size")
          (Inventory.PyExpr.name "int")
          (some (Inventory.PyExpr.constant (Inventory.Lit.intL 10)))]
        "module" = Except.ok ⟨[], [], [], []⟩ ∧
    Inventory.NodeExtractor.extract Inventory.exCfgUp "m"
        [Inventory.Stmt.annAssign (Inventory.PyExpr.name "_MAX")
          (Inventory.PyExpr.name "int")
          (some (Inventory.PyExpr.constant (Inventory.Lit.intL 10)))]
        "module" =
      Except.error "type object \x27AstUtils\x27 has no attribute \x27re\x27" := by
  decide

/-- C4: an enumeration member written as the plain assignment RED = 1 is
never collected (the member loop reads the absent target attribute), so
the claim fails on the most common enum form; annotated-assignment
members behave as claimed — non-underscore names are kept with their
value text and the member list is re-sorted by name, with
underscore-prefixed names skipped. -/
theorem claim_C4_enum_members :
    (Inventory.NodeExtractor._enum Inventory.exCfg "Color" "m.Color"
        [Inventory.Stmt.assign [Inventory.PyExpr.name "RED"]
          (Inventory.PyExpr.constant (Inventory.Lit.intL 1))]).members = [] ∧
    (Inventory.NodeExtractor._enum Inventory.exCfg "Color" "m.Color"
        [Inventory.Stmt.annAssign (Inventory.PyExpr.name "RED")
            (Inventory.PyExpr.name "int")
            (some (Inventory.PyExpr.constant (Inventory.Lit.intL 1)))]).members =
      [{ name := "RED", value_repr := "1" }] ∧
    (Inventory.NodeExtractor._enum Inventory.exCfg "Color" "m.Color"
        [Inventory.Stmt.annAssign (Inventory.PyExpr.name "RED")
            (Inventory.PyExpr.name "int")
            (some (Inventory.PyExpr.constant (Inventory.Lit.intL 1))),
         Inventory.Stmt.annAssign (Inventory.PyExpr.name "BLUE")
            (Inventory.PyExpr.name "int")
            (some (Inventory.PyExpr.constant (Inventory.Lit.intL 2))),
         Inventory.Stmt.annAssign (Inventory.PyExpr.name "_skip")
            (Inventory.PyExpr.name "int")
            (some (Inventory.PyExpr.constant (Inventory.Lit.intL 3)))]).members =
      [{ name := "BLUE", value_repr := "2" },
       { name := "RED", value_repr := "1" }] := by
  decide

/-- C7: the merge logic itself behaves as the claim describes — a failing
module increments files_parse_errors by one, leaves the package module
list without that module, does not abort the run, and the exit decision
of CliInterface.run maps the resulting report to the errors-occurred
signal 2, distinct from the fatal-setup signal 1.  (The claim is
nevertheless recorded as a code bug: the packaged CLI constructs
InventoryService with a logger keyword its initializer does not accept,
so every invocation dies in the except handler with the fatal-setup
signal before this logic runs.) -/
theorem claim_C7_parse_failure_handling :
    (Inventory.InventoryService.runRepo Inventory.exCfg
        Inventory.exRepoBad).2.files_parse_errors = 1 ∧
    (Inventory.InventoryService.runRepo Inventory.exCfg
        Inventory.exRepoBad).2.files_parsed_ok = 1 ∧
    ((Inventory.InventoryService.runRepo Inventory.exCfg
        Inventory.exRepoBad).1.map
      (fun p => p.modules.map Inventory.ModuleRecord.qname)) = [["pkg"]] ∧
    Inventory.CliInterface.exitSignal
      (Inventory.InventoryService._build_report "t"
        (Inventory.InventoryService.runRepo Inventory.exCfg Inventory.exRepoBad).2
        (Inventory.InventoryService.runRepo Inventory.exCfg Inventory.exRepoBad).1
        none none Inventory.exCfg "/repo") = 2 ∧
    (2 : Nat) ≠ Inventory.CliInterface.fatalSignal := by
  decide

/-- C2 (counterexample): on a repository where two files share a module
qualified name (ab.py and ab.py.py both map to "ab"), two completion
orders of the same parse results — one the reverse of the other, hence a
permutation — merge to different reports, refuting order independence as
stated. -/
theorem claim_C2_counterexample :
    Inventory.exCollisionResults.reverse.Perm Inventory.exCollisionResults ∧
    Inventory.InventoryService._process_modules Inventory.exCollisionPkgs
        Inventory.exCollisionStats Inventory.exCollisionResults ≠
      Inventory.InventoryService._process_modules Inventory.exCollisionPkgs
        Inventory.exCollisionStats Inventory.exCollisionResults.reverse := by
  exact ⟨List.reverse_perm _, by decide⟩

/-- C6 (counterexample): on the file a.py.py the worker derives the
qualified name "a" (every ".py" occurrence is replaced), while the
claimed contract — only the file extension removed — yields "a.py". -/
theorem claim_C6_counterexample :
    Inventory.ModuleWorker.qnameOfRel "a.py.py" = "a" ∧
    Inventory.specModuleQname "a.py.py" = "a.py" ∧
    ("a" : String) ≠ "a.py" ∧
    (Inventory.ModuleWorker.parse_file Inventory.exCfgAny "a.py.py"
      (Except.ok [])).1 = "a" := by
  decide

/-- C8 (counterexample): with package directories a/c and a-b the report
lists package qualified names ["a.c", "a-b"], which is not sorted by
qualified name (packages follow pathlib path order, and "-" sorts before
"." while "/" sorts after it). -/
theorem claim_C8_counterexample :
    ((Inventory.InventoryService._build_package_tree Inventory.exCfgAny
        [["a", "c", "m.py"], ["a-b", "m.py"]]).map
      Inventory.PackageRecord.qname) = ["a.c", "a-b"] ∧
    ¬ List.Sorted (fun a b : String => Inventory.strLeB a b = true)
        ["a.c", "a-b"] := by
  constructor
  · decide
  · decide


/-- C2 (amended): as long as the parse results carry pairwise-distinct
module qualified names (no two repository files collapse to the same
qname), the merge of _process_modules, and with it the assembled report,
is the same for any two completion orders that are permutations of each
other; identical inputs and configuration then give identical reports. -/
theorem claim_C2_determinism_amended :
    ∀ (pkgs : List Inventory.PackageRecord) (stats : Inventory.InventoryStats)
      (r₁ r₂ : List (String × (Inventory.ModuleRecord ⊕ String))),
      r₁.Perm r₂ → (r₁.map Prod.fst).Nodup →
      Inventory.InventoryService._process_modules pkgs stats r₁ =
        Inventory.InventoryService._process_modules pkgs stats r₂ ∧
      ∀ (gen root : String) (pname pver : Option String)
        (cfg : Inventory.Config),
        Inventory.InventoryService._build_report gen
            (Inventory.InventoryService._process_modules pkgs stats r₁).2
            (Inventory.InventoryService._process_modules pkgs stats r₁).1
            pname pver cfg root =
          Inventory.InventoryService._build_report gen
            (Inventory.InventoryService._process_modules pkgs stats r₂).2
            (Inventory.InventoryService._process_modules pkgs stats r₂).1
            pname pver cfg root := by
  intro pkgs stats r₁ r₂ hperm hnd
  have h := Inventory.process_modules_perm pkgs stats hperm hnd
  exact ⟨h, fun gen root pname pver cfg => by rw [h]⟩

/-- Witness for C2 (amended): two distinct-key results merged in either
of the two orders give the same outcome. -/
theorem claim_C2_determinism_amended_witness :
    Inventory.InventoryService._process_modules []
        (Inventory.InventoryService._init_stats 0 0 0 0)
        [("a", (Sum.inr "x" : Inventory.ModuleRecord ⊕ String)),
         ("b", (Sum.inr "y" : Inventory.ModuleRecord ⊕ String))] =
      Inventory.InventoryService._process_modules []
        (Inventory.InventoryService._init_stats 0 0 0 0)
        [("b", (Sum.inr "y" : Inventory.ModuleRecord ⊕ String)),
         ("a", (Sum.inr "x" : Inventory.ModuleRecord ⊕ String))] :=
  (claim_C2_determinism_amended [] (Inventory.InventoryService._init_stats 0 0 0 0)
    _ _
    (List.Perm.swap ("b", (Sum.inr "y" : Inventory.ModuleRecord ⊕ String))
      ("a", (Sum.inr "x" : Inventory.ModuleRecord ⊕ String)) [])
    (by decide)).1

/-- C9: after module processing, every module skeleton has fed exactly one
of the two counters, so files_parsed_ok + files_parse_errors equals the
reported modules count, for every package tree, any completion sequence
and the statistics _init_stats seeds (both counters zero, modules equal to
the number of skeletons). -/
theorem claim_C9_counter_invariant :
    ∀ (pkgs : List Inventory.PackageRecord) (files excluded : Nat)
      (results : List (String × (Inventory.ModuleRecord ⊕ String))),
      (Inventory.InventoryService._process_modules pkgs
          (Inventory.InventoryService._init_stats files excluded pkgs.length
            ((pkgs.map (fun p => p.modules.length)).sum)) results).2.files_parsed_ok +
        (Inventory.InventoryService._process_modules pkgs
          (Inventory.InventoryService._init_stats files excluded pkgs.length
            ((pkgs.map (fun p => p.modules.length)).sum)) results).2.files_parse_errors =
      (Inventory.InventoryService._process_modules pkgs
          (Inventory.InventoryService._init_stats files excluded pkgs.length
            ((pkgs.map (fun p => p.modules.length)).sum)) results).2.modules := by
  intro pkgs files excluded results
  obtain ⟨hc, hm⟩ := Inventory.mergePackages_counts
    (fun q => Inventory.InventoryService.lastAssoc results q) pkgs
    (Inventory.InventoryService._init_stats files excluded pkgs.length
      ((pkgs.map (fun p => p.modules.length)).sum))
  show _ + _ = _
  rw [show Inventory.InventoryService._process_modules pkgs
    (Inventory.InventoryService._init_stats files excluded pkgs.length
      ((pkgs.map (fun p => p.modules.length)).sum)) results =
    Inventory.InventoryService.mergePackages
      (fun q => Inventory.InventoryService.lastAssoc results q)
      (Inventory.InventoryService._init_stats files excluded pkgs.length
        ((pkgs.map (fun p => p.modules.length)).sum)) pkgs from rfl]
  rw [hc, hm]
  simp [Inventory.InventoryService._init_stats]

/-- C10: the collection loop skips every non-regular-file and every
symbolic link, counts an entry as excluded exactly when it is a regular
non-link file matching the exclusion spec, and returns the surviving
paths sorted by pathlib path order; a path carried only by symbolic links
never appears in the collected list, and the whole outcome is invariant
under permutation of the file-system iteration order. -/
theorem claim_C10_collect_files :
    ∀ (matcher : List String → Bool)
      (entries : List Inventory.InventoryService.FsEntry),
      List.Sorted (fun a b : List String => Inventory.partsLeB a b = true)
        (Inventory.InventoryService._collect_files matcher entries).1 ∧
      (∀ p, p ∈ (Inventory.InventoryService._collect_files matcher entries).1 ↔
        ∃ e ∈ entries, e.is_file = true ∧ e.is_symlink = false ∧
          matcher e.parts = false ∧ e.parts = p) ∧
      (Inventory.InventoryService._collect_files matcher entries).2 =
        entries.countP (fun e => e.is_file && !e.is_symlink && matcher e.parts) ∧
      ((entries.map Inventory.InventoryService.FsEntry.parts).Nodup →
        ∀ e ∈ entries, e.is_symlink = true →
          e.parts ∉ (Inventory.InventoryService._collect_files matcher entries).1) ∧
      (∀ entries₂, entries.Perm entries₂ →
        Inventory.InventoryService._collect_files matcher entries =
          Inventory.InventoryService._collect_files matcher entries₂) := by
  intro matcher entries
  haveI instTot : IsTotal (List String)
      (fun a b : List String => Inventory.partsLeB a b = true) :=
    ⟨Inventory.partsLeB_total⟩
  haveI instTrans : IsTrans (List String)
      (fun a b : List String => Inventory.partsLeB a b = true) :=
    ⟨fun _ _ _ => Inventory.partsLeB_trans⟩
  haveI instAnti : IsAntisymm (List String)
      (fun a b : List String => Inventory.partsLeB a b = true) :=
    ⟨fun _ _ => Inventory.partsLeB_antisymm⟩
  have hmem : ∀ p, p ∈ (Inventory.InventoryService._collect_files matcher entries).1 ↔
      ∃ e ∈ entries, e.is_file = true ∧ e.is_symlink = false ∧
        matcher e.parts = false ∧ e.parts = p := by
    intro p
    rw [show (Inventory.InventoryService._collect_files matcher entries).1 =
      List.insertionSort (fun a b : List String => Inventory.partsLeB a b = true)
        (Inventory.InventoryService.collectLoop matcher entries).1 from rfl]
    rw [(List.perm_insertionSort
      (fun a b : List String => Inventory.partsLeB a b = true) _).mem_iff]
    rw [Inventory.collectLoop_fst]
    simp only [List.mem_map, List.mem_filter, Bool.and_eq_true, Bool.not_eq_true']
    tauto
  refine ⟨?sorted, hmem, ?count, ?symlink, ?perm⟩
  case sorted =>
    exact List.sorted_insertionSort _ _
  case count =>
    exact Inventory.collectLoop_snd matcher entries
  case symlink =>
    intro hnd e he hsym hmem2
    obtain ⟨e2, he2, hf2, hs2, _, hp2⟩ := (hmem e.parts).mp hmem2
    have : e2 = e := List.inj_on_of_nodup_map hnd he2 he hp2
    subst this
    rw [hsym] at hs2
    exact absurd hs2 (by simp)
  case perm =>
    intro entries₂ hperm
    have hfst : (Inventory.InventoryService._collect_files matcher entries).1 =
        (Inventory.InventoryService._collect_files matcher entries₂).1 := by
      have hloopPerm :
          (Inventory.InventoryService.collectLoop matcher entries).1.Perm
            (Inventory.InventoryService.collectLoop matcher entries₂).1 := by
        rw [Inventory.collectLoop_fst, Inventory.collectLoop_fst]
        exact (hperm.filter _).map _
      exact List.eq_of_perm_of_sorted
        (((List.perm_insertionSort _ _).trans hloopPerm).trans
          (List.perm_insertionSort _ _).symm)
        (List.sorted_insertionSort _ _) (List.sorted_insertionSort _ _)
    have hsnd : (Inventory.InventoryService._collect_files matcher entries).2 =
        (Inventory.InventoryService._collect_files matcher entries₂).2 := by
      rw [show (Inventory.InventoryService._collect_files matcher entries).2 =
        (Inventory.InventoryService.collectLoop matcher entries).2 from rfl,
        show (Inventory.InventoryService._collect_files matcher entries₂).2 =
        (Inventory.InventoryService.collectLoop matcher entries₂).2 from rfl,
        Inventory.collectLoop_snd, Inventory.collectLoop_snd]
      exact hperm.countP_eq _
    exact Prod.ext hfst hsnd

/-- Witness for C10 at a concrete three-entry listing (a regular file, a
symbolic link and an excluded file). -/
theorem claim_C10_collect_files_witness :
    (Inventory.InventoryService._collect_files (fun p => decide (p = [["x.py"]].head!))
        [⟨["b.py"], true, false⟩, ⟨["a.py"], true, true⟩, ⟨["x.py"], true, false⟩]).2 =
      1 ∧
    ¬ (["a.py"] ∈ (Inventory.InventoryService._collect_files
        (fun p => decide (p = [["x.py"]].head!))
        [⟨["b.py"], true, false⟩, ⟨["a.py"], true, true⟩, ⟨["x.py"], true, false⟩]).1) := by
  constructor
  · exact (claim_C10_collect_files (fun p => decide (p = [["x.py"]].head!))
      [⟨["b.py"], true, false⟩, ⟨["a.py"], true, true⟩,
        ⟨["x.py"], true, false⟩]).2.2.1.trans (by decide)
  · exact (claim_C10_collect_files (fun p => decide (p = [["x.py"]].head!))
      [⟨["b.py"], true, false⟩, ⟨["a.py"], true, true⟩,
        ⟨["x.py"], true, false⟩]).2.2.2.1 (by decide)
      ⟨["a.py"], true, true⟩ (by decide) (by decide)


namespace Inventory

/-- Every package emitted by the merge carries its modules re-sorted by
qualified name (line 210 of core.py), whatever the threaded statistics. -/
theorem mergePackages_sorted
    (lookup : String → Option (ModuleRecord ⊕ String)) :
    ∀ (pkgs : List PackageRecord) (stats : InventoryStats),
      ∀ pkg ∈ (InventoryService.mergePackages lookup stats pkgs).1,
        List.Sorted (fun a b : ModuleRecord => strLeB a.qname b.qname = true)
          pkg.modules := by
  haveI instTot : IsTotal ModuleRecord
      (fun a b : ModuleRecord => strLeB a.qname b.qname = true) :=
    ⟨fun a b => strLeB_total a.qname b.qname⟩
  haveI instTrans : IsTrans ModuleRecord
      (fun a b : ModuleRecord => strLeB a.qname b.qname = true) :=
    ⟨fun _ _ _ => strLeB_trans⟩
  intro pkgs
  induction pkgs with
  | nil =>
    intro stats pkg h
    simp [InventoryService.mergePackages] at h
  | cons p rest ih =>
    intro stats pkg h
    have hsplit := List.mem_cons.mp h
    rcases hsplit with rfl | h2
    · exact List.sorted_insertionSort _ _
    · exact ih _ pkg h2

end Inventory

/-- C5: in every extracted class record, a method literally named __init__
always appears (whenever the class body declares one, regardless of the
public-only filter) and always carries kind "instance" even when a
static-method or class-method decorator is present; every record named
__init__ has kind "instance"; every other record's kind is the decorator
fold of its declaration, which is "instance" with no marker, "static"
when a staticmethod marker occurs without a classmethod marker, and
"class" when a classmethod marker occurs without a staticmethod one. -/
theorem claim_C5_init_always_instance :
    ∀ (cfg : Inventory.Config) (qname name : String)
      (body : List Inventory.Stmt) (consts : List Inventory.ConstantRecord),
      (∀ (args : Inventory.PyArgs) (fbody : List Inventory.Stmt)
        (decs : List String) (ret : Option Inventory.PyExpr),
        (Inventory.Stmt.functionDef "__init__" args fbody decs ret ∈ body ∨
          Inventory.Stmt.asyncFunctionDef "__init__" args fbody decs ret ∈ body) →
        ∃ m ∈ (Inventory.NodeExtractor.classRecordOf cfg qname name body
            consts).methods, m.name = "__init__" ∧ m.kind = "instance") ∧
      (∀ m ∈ (Inventory.NodeExtractor.classRecordOf cfg qname name body
          consts).methods,
        (m.name = "__init__" → m.kind = "instance") ∧
        (¬ m.name = "__init__" →
          ∃ args fbody decs ret,
            (Inventory.Stmt.functionDef m.name args fbody decs ret ∈ body ∨
              Inventory.Stmt.asyncFunctionDef m.name args fbody decs ret ∈
                body) ∧
            m.kind = decs.foldl Inventory.AstUtils.decoStep "instance")) ∧
      (∀ decs : List String,
        ((∀ d ∈ decs,
            Inventory.AstUtils.endsWithPy d "staticmethod" = false ∧
            Inventory.AstUtils.endsWithPy d "classmethod" = false) →
          decs.foldl Inventory.AstUtils.decoStep "instance" = "instance") ∧
        ((∃ d ∈ decs, Inventory.AstUtils.endsWithPy d "staticmethod" = true) →
          (∀ d ∈ decs, Inventory.AstUtils.endsWithPy d "classmethod" = false) →
          decs.foldl Inventory.AstUtils.decoStep "instance" = "static") ∧
        ((∃ d ∈ decs, Inventory.AstUtils.endsWithPy d "classmethod" = true) →
          (∀ d ∈ decs, Inventory.AstUtils.endsWithPy d "staticmethod" = false) →
          decs.foldl Inventory.AstUtils.decoStep "instance" = "class")) := by
  intro cfg qname name body consts
  have hmemIff : ∀ m : Inventory.MethodRecord,
      m ∈ (Inventory.NodeExtractor.classRecordOf cfg qname name body
        consts).methods ↔
      m ∈ Inventory.NodeExtractor.methodsOf cfg qname body := by
    intro m
    rw [show (Inventory.NodeExtractor.classRecordOf cfg qname name body
        consts).methods =
      List.insertionSort
        (fun a b : Inventory.MethodRecord => Inventory.strLeB a.name b.name = true)
        (Inventory.NodeExtractor.methodsOf cfg qname body) from rfl]
    exact (List.perm_insertionSort _ _).mem_iff
  refine ⟨?h1, ?h2, ?h3⟩
  case h1 =>
    intro args fbody decs ret h
    exact ⟨Inventory.NodeExtractor._method cfg qname "__init__" args fbody decs ret,
      (hmemIff _).mpr
        (Inventory.methodsOf_init_mem cfg qname args fbody decs ret body h),
      Inventory._method_name cfg qname "__init__" args fbody decs ret,
      Inventory._method_init_kind cfg qname args fbody decs ret⟩
  case h2 =>
    intro m hm
    obtain ⟨n2, a2, b2, d2, r2, hmem2, hEq⟩ :=
      Inventory.methodsOf_shape cfg qname body m ((hmemIff m).mp hm)
    subst hEq
    constructor
    · intro hname
      rw [Inventory._method_name] at hname
      subst hname
      exact Inventory._method_init_kind cfg qname a2 b2 d2 r2
    · intro hname
      rw [Inventory._method_name] at hname
      refine ⟨a2, b2, d2, r2, ?memEq, ?kind⟩
      case memEq =>
        rw [Inventory._method_name]
        exact hmem2
      case kind =>
        exact Inventory._method_kind_of_ne cfg qname n2 a2 b2 d2 r2 hname
  case h3 =>
    intro decs
    exact ⟨Inventory.decoStep_fold_no_marker decs "instance",
      fun hex hnc => Inventory.decoStep_fold_static decs "instance" hex hnc,
      fun hex hns => Inventory.decoStep_fold_class decs "instance" hex hns⟩

/-- Witness for C5: under public_only, a class body declaring only
__init__ decorated with staticmethod still yields an __init__ record of
kind "instance". -/
theorem claim_C5_init_always_instance_witness :
    ∃ m ∈ (Inventory.NodeExtractor.classRecordOf Inventory.exCfg "pkg.a.C" "C"
        [Inventory.Stmt.functionDef "__init__" Inventory.PyArgs.empty
          [Inventory.Stmt.passStmt] ["staticmethod"] none] []).methods,
      m.name = "__init__" ∧ m.kind = "instance" :=
  (claim_C5_init_always_instance Inventory.exCfg "pkg.a.C" "C"
      [Inventory.Stmt.functionDef "__init__" Inventory.PyArgs.empty
        [Inventory.Stmt.passStmt] ["staticmethod"] none] []).1
    Inventory.PyArgs.empty [Inventory.Stmt.passStmt] ["staticmethod"] none
    (Or.inl (List.mem_cons_self _ _))


/-- C8 (amended): the package sequence of the built tree follows the
sorted order of the package directories, where the sort compares the
directory part tuples (Python sorts Path values by parts, not the dotted
qname); whenever every package directory is made of ordinary components
(non-empty, slash-free, characters above the dot) the two orders
coincide and the reported package qnames are sorted; and within every
package the modules are re-sorted by module qualified name before the
report is returned, for any completion order. -/
theorem claim_C8_amended :
    ∀ (cfg : Inventory.Config) (files : List (List String)),
      List.Sorted (fun a b : List String => Inventory.partsLeB a b = true)
        (Inventory.InventoryService.sortedPkgDirs cfg files) ∧
      ((∀ d ∈ Inventory.InventoryService.sortedPkgDirs cfg files,
          d ≠ [] ∧ ∀ part ∈ d, Inventory.goodPart part) →
        List.Sorted (fun a b : String => Inventory.strLeB a b = true)
          ((Inventory.InventoryService._build_package_tree cfg files).map
            Inventory.PackageRecord.qname)) ∧
      (∀ (pkgs : List Inventory.PackageRecord)
        (stats : Inventory.InventoryStats)
        (results : List (String × (Inventory.ModuleRecord ⊕ String))),
        ∀ pkg ∈ (Inventory.InventoryService._process_modules pkgs stats
            results).1,
          List.Sorted (fun a b : Inventory.ModuleRecord =>
            Inventory.strLeB a.qname b.qname = true) pkg.modules) := by
  intro cfg files
  haveI instTot : IsTotal (List String)
      (fun a b : List String => Inventory.partsLeB a b = true) :=
    ⟨Inventory.partsLeB_total⟩
  haveI instTrans : IsTrans (List String)
      (fun a b : List String => Inventory.partsLeB a b = true) :=
    ⟨fun _ _ _ => Inventory.partsLeB_trans⟩
  have hsort : List.Sorted
      (fun a b : List String => Inventory.partsLeB a b = true)
      (Inventory.InventoryService.sortedPkgDirs cfg files) :=
    List.sorted_insertionSort _ _
  refine ⟨hsort, ?coincide, ?mods⟩
  case coincide =>
    intro hgood
    have hqe : ∀ d ∈ Inventory.InventoryService.sortedPkgDirs cfg files,
        Inventory.InventoryService.packageQname
          (Inventory.InventoryService.normalize_rel cfg d) =
          Inventory.dotJoin d :=
      fun d hd =>
        Inventory.packageQname_normalize cfg d (hgood d hd).1 (hgood d hd).2
    have hmapEq : (Inventory.InventoryService._build_package_tree cfg
        files).map Inventory.PackageRecord.qname =
        (Inventory.InventoryService.sortedPkgDirs cfg files).map
          (fun d => Inventory.InventoryService.packageQname
            (Inventory.InventoryService.normalize_rel cfg d)) := by
      unfold Inventory.InventoryService._build_package_tree
      rw [List.map_map]
      rfl
    rw [hmapEq]
    have hpw0 : List.Pairwise
        (fun a b : List String => Inventory.partsLeB a b = true)
        (Inventory.InventoryService.sortedPkgDirs cfg files) := hsort
    have hpw : List.Pairwise
        (fun a b : List String =>
          Inventory.strLeB
            (Inventory.InventoryService.packageQname
              (Inventory.InventoryService.normalize_rel cfg a))
            (Inventory.InventoryService.packageQname
              (Inventory.InventoryService.normalize_rel cfg b)) = true)
        (Inventory.InventoryService.sortedPkgDirs cfg files) := by
      refine List.Pairwise.imp_of_mem ?step hpw0
      intro a b ha hb hr
      rw [hqe a ha, hqe b hb,
        ← Inventory.partsLeB_eq_dotJoin_leB a b (hgood a ha).2 (hgood b hb).2]
      exact hr
    exact List.pairwise_map.mpr hpw
  case mods =>
    intro pkgs stats results pkg h
    exact Inventory.mergePackages_sorted
      (fun q => Inventory.InventoryService.lastAssoc results q) pkgs stats pkg h

/-- Witness for C8 (amended) on the end-to-end repository layout: the
single reported package qname list is sorted. -/
theorem claim_C8_amended_witness :
    List.Sorted (fun a b : String => Inventory.strLeB a b = true)
      ((Inventory.InventoryService._build_package_tree Inventory.exCfg
        [["pkg", "__init__.py"], ["pkg", "a.py"]]).map
          Inventory.PackageRecord.qname) :=
  (claim_C8_amended Inventory.exCfg
    [["pkg", "__init__.py"], ["pkg", "a.py"]]).2.1
    (by simp only [Inventory.goodPart]; decide)


/-- C6 (amended): the worker qname and the package-tree builder qname are
the same function of the relative path, and the worker output for a file
equals the skeleton qname the builder stores, so every parallel worker
computes it independently from only path and configuration; on a path of
ordinary segments (non-empty, slash-free, never containing ".py" as a
substring and never starting with "__init__") the chain of global
replacements behaves like the specified derivation: dirs/stem.py maps to
the dot-join of dirs and stem, and dirs/__init__.py maps to the dot-join
of dirs.  (On other inputs the global str.replace diverges from the
spec, see the counterexample.) -/
theorem claim_C6_amended :
    (∀ rel : String,
      Inventory.ModuleWorker.qnameOfRel rel =
        Inventory.InventoryService.moduleQname rel) ∧
    (∀ (cfg : Inventory.Config) (parts : List String)
      (tree : Except String (List Inventory.Stmt)),
      (Inventory.ModuleWorker.parse_file cfg (Inventory.joinParts parts)
          tree).1 =
        (Inventory.InventoryService.moduleSkeleton cfg parts).qname) ∧
    (∀ (dirs : List (List Char)) (stem : List Char),
      (∀ part ∈ dirs, Inventory.segOkC part) → Inventory.segOkC stem →
      Inventory.ModuleWorker.qnameOfRel
          ⟨Inventory.joinC '/' (dirs ++ [stem ++ ".py".data])⟩ =
        ⟨Inventory.joinC '.' (dirs ++ [stem])⟩) ∧
    (∀ dirs : List (List Char), dirs ≠ [] →
      (∀ part ∈ dirs, Inventory.segOkC part) →
      Inventory.ModuleWorker.qnameOfRel
          ⟨Inventory.joinC '/' (dirs ++ ["__init__".data ++ ".py".data])⟩ =
        ⟨Inventory.joinC '.' dirs⟩) := by
  have hdrop : ∀ ps : List (List Char), ps ≠ [] →
      (∀ part ∈ ps, part ≠ [] ∧ ('/' : Char) ∉ part) →
      (Inventory.joinC '/' ps).dropWhile (fun c => decide (c = '/')) =
        Inventory.joinC '/' ps := by
    intro ps hne hok
    cases ps with
    | nil => exact absurd rfl hne
    | cons p rest =>
      exact Inventory.dropWhile_slash_join rest
        (hok p (List.mem_cons_self p rest)).1
        (hok p (List.mem_cons_self p rest)).2
  refine ⟨fun rel => rfl, ?_, ?_, ?_⟩
  · intro cfg parts tree
    cases tree <;> rfl
  · intro dirs stem hdirs hstem
    obtain ⟨hsne, hsfree, hspy, hsinit⟩ := hstem
    have h1 : (Inventory.joinC '/'
        (dirs ++ [stem ++ ".py".data])).dropWhile
          (fun c => decide (c = '/')) =
        Inventory.joinC '/' (dirs ++ [stem ++ ".py".data]) := by
      refine hdrop _ (by simp) ?_
      intro part hpart
      rcases List.mem_append.mp hpart with hp | hp
      · exact ⟨(hdirs part hp).1, (hdirs part hp).2.1⟩
      · rw [List.mem_singleton] at hp
        subst hp
        refine ⟨fun hc => hsne (List.append_eq_nil.mp hc).1, ?_⟩
        intro hc
        rcases List.mem_append.mp hc with hc | hc
        · exact hsfree hc
        · exact (by decide : ('/' : Char) ∉ ".py".data) hc
    have h2 : Inventory.listReplace ".py".data []
        (Inventory.joinC '/' (dirs ++ [stem ++ ".py".data])) =
        Inventory.joinC '/' (dirs ++ [stem]) := by
      refine Inventory.strip_py_join dirs stem ?_
      intro part hpart
      rcases List.mem_append.mp hpart with hp | hp
      · exact (hdirs part hp).2.2.1
      · rw [List.mem_singleton] at hp; subst hp; exact hspy
    have h3 : Inventory.listReplace "/__init__".data []
        (Inventory.joinC '/' (dirs ++ [stem])) =
        Inventory.joinC '/' (dirs ++ [stem]) := by
      refine Inventory.strip_initpat_identity (dirs ++ [stem]) ?_ ?_
      · intro part hpart
        rcases List.mem_append.mp hpart with hp | hp
        · exact (hdirs part hp).2.2.2
        · rw [List.mem_singleton] at hp; subst hp; exact hsinit
      · intro part hpart
        rcases List.mem_append.mp hpart with hp | hp
        · exact (hdirs part hp).2.1
        · rw [List.mem_singleton] at hp; subst hp; exact hsfree
    have h4 : Inventory.listReplace "/".data ".".data
        (Inventory.joinC '/' (dirs ++ [stem])) =
        Inventory.joinC '.' (dirs ++ [stem]) := by
      refine Inventory.fold_slash_join (dirs ++ [stem]) ?_
      intro part hpart
      rcases List.mem_append.mp hpart with hp | hp
      · exact (hdirs part hp).2.1
      · rw [List.mem_singleton] at hp; subst hp; exact hsfree
    have hchain : Inventory.listReplace "/".data ".".data
        (Inventory.listReplace "/__init__".data []
          (Inventory.listReplace ".py".data []
            ((String.mk (Inventory.joinC '/'
              (dirs ++ [stem ++ ".py".data]))).data.dropWhile
                (fun c => decide (c = '/'))))) =
        Inventory.joinC '.' (dirs ++ [stem]) := by
      rw [show (String.mk (Inventory.joinC '/'
        (dirs ++ [stem ++ ".py".data]))).data =
        Inventory.joinC '/' (dirs ++ [stem ++ ".py".data]) from rfl]
      rw [h1, h2, h3, h4]
    exact congrArg String.mk hchain
  · intro dirs hne hdirs
    have h1 : (Inventory.joinC '/'
        (dirs ++ ["__init__".data ++ ".py".data])).dropWhile
          (fun c => decide (c = '/')) =
        Inventory.joinC '/' (dirs ++ ["__init__".data ++ ".py".data]) := by
      refine hdrop _ (by simp) ?_
      intro part hpart
      rcases List.mem_append.mp hpart with hp | hp
      · exact ⟨(hdirs part hp).1, (hdirs part hp).2.1⟩
      · rw [List.mem_singleton] at hp
        subst hp
        exact ⟨by decide, by decide⟩
    have h2 : Inventory.listReplace ".py".data []
        (Inventory.joinC '/' (dirs ++ ["__init__".data ++ ".py".data])) =
        Inventory.joinC '/' (dirs ++ ["__init__".data]) := by
      refine Inventory.strip_py_join dirs "__init__".data ?_
      intro part hpart
      rcases List.mem_append.mp hpart with hp | hp
      · exact (hdirs part hp).2.2.1
      · rw [List.mem_singleton] at hp; subst hp; decide
    have h3 : Inventory.listReplace "/__init__".data []
        (Inventory.joinC '/' (dirs ++ ["__init__".data])) =
        Inventory.joinC '/' dirs :=
      Inventory.strip_initpat_last dirs hne
        (fun part hp => (hdirs part hp).2.2.2)
        (fun part hp => (hdirs part hp).2.1)
    have h4 : Inventory.listReplace "/".data ".".data
        (Inventory.joinC '/' dirs) = Inventory.joinC '.' dirs :=
      Inventory.fold_slash_join dirs (fun part hp => (hdirs part hp).2.1)
    have hchain : Inventory.listReplace "/".data ".".data
        (Inventory.listReplace "/__init__".data []
          (Inventory.listReplace ".py".data []
            ((String.mk (Inventory.joinC '/'
              (dirs ++ ["__init__".data ++ ".py".data]))).data.dropWhile
                (fun c => decide (c = '/'))))) =
        Inventory.joinC '.' dirs := by
      rw [show (String.mk (Inventory.joinC '/'
        (dirs ++ ["__init__".data ++ ".py".data]))).data =
        Inventory.joinC '/' (dirs ++ ["__init__".data ++ ".py".data])
        from rfl]
      rw [h1, h2, h3, h4]
    exact congrArg String.mk hchain

/-- Witness for C6 (amended): pkg/a.py derives module qname pkg.a. -/
theorem claim_C6_amended_witness :
    Inventory.ModuleWorker.qnameOfRel
        ⟨Inventory.joinC '/' (["pkg".data] ++ ["a".data ++ ".py".data])⟩ =
      ⟨Inventory.joinC '.' (["pkg".data] ++ ["a".data])⟩ :=
  claim_C6_amended.2.2.1 ["pkg".data] "a".data
    (by simp only [Inventory.segOkC]; decide)
    (by simp only [Inventory.segOkC]; decide)
